import Mathlib

/-!
# ember-cli-zanata: push / pull synchronisation

A shallow embedding of `lib/commands/abstract.js`, `lib/commands/push.js`,
`lib/commands/pull.js`, `lib/utils/push.js` and `lib/utils/pull.js`.

* JavaScript strings are lists of characters (`Str`).
* A path is the list of its components below the working directory; a file
  name is one component, as `fs.readdirSync` returns it. `path.join(dir, name)`
  is `dir ++ [name]` and `path.join(tmpDir)` is the normalised `tmpDir` itself.
* The file system is an association list from paths to nodes; the Node.js
  calls the commands use (`existsSync`, `mkdirSync`, `readdirSync`,
  `unlinkSync`, `rmdirSync`, `copyFileSync`, `writeFileSync`) are modelled
  with their error cases; `readdirSync` returns the names sorted, as libuv's
  `scandir` does.
* A promise chain is run to completion: a command takes the world before the
  sync and returns the world after it together with how its promise settled
  (`resolved`, `rejected`, or `pending` when neither callback is ever called).
* The remote service is a script: the terminal event of the `i`-th push call,
  and for a pull the incremental items followed by the terminal event. Each
  call ends with exactly one terminal event.
* Names handed to `path.join` (directory entries, the `name` and `locale` of
  a pulled item, the result of a locale function) are single path components.
* `tryCount` is an integer; console output is kept as a list of `LogLine`s
  without the message text.
-/

namespace Zanata

/-! ## Strings -/

abbrev Str := List Char

/-- JavaScript `s.startsWith(pat)`. -/
def startsWith : Str → Str → Bool
  | _, [] => true
  | [], _ :: _ => false
  | c :: s, p :: pat => if c = p then startsWith s pat else false

/-- JavaScript `s.endsWith(suf)`. -/
def endsWith (s suf : Str) : Bool :=
  startsWith s.reverse suf.reverse

/-- JavaScript `s.includes(pat)`. -/
def includes : Str → Str → Bool
  | [], pat => startsWith [] pat
  | c :: s, pat => if startsWith (c :: s) pat then true else includes s pat

/-- JavaScript `s.replace(pat, rep)` for a string pattern: only the first
occurrence of `pat` is replaced (`rep` holds no `$` pattern in this program). -/
def replace : Str → Str → Str → Str
  | [], pat, rep => if startsWith [] pat then rep else []
  | c :: s, pat, rep =>
    if startsWith (c :: s) pat then rep ++ (c :: s).drop pat.length
    else c :: replace s pat rep

/-- First element of JavaScript `s.split(sep)` for a non-empty separator, as
bound by `let [locale] = file.split('.po')`: the part of `s` before the first
occurrence of `sep`, or all of `s` when `sep` does not occur. -/
def splitHead : Str → Str → Str
  | [], _ => []
  | c :: s, sep => if startsWith (c :: s) sep then [] else c :: splitHead s sep

/-! ## Errors, file system -/

/-- A normalised path below the working directory, component by component;
`[]` is the working directory itself. -/
abbrev Path := List Str

/-- The data of an `end_push` or `end_pull` event, opaque to the commands. -/
abbrev Payload := Str

/-- The error codes of the Node.js `fs` calls that the model raises. -/
inductive Errno
  | ENOENT | EEXIST | ENOTDIR | EISDIR | ENOTEMPTY
deriving DecidableEq, Repr

/-- What a promise is rejected with, or what a call throws: a file system
error, or the error carried by the remote client's `fail` event. -/
inductive Err
  | fs (code : Errno) (path : Path)
  | remote (msg : Str)
deriving DecidableEq, Repr

/-- A directory entry: a regular file with its content, or a directory. -/
inductive Node
  | file (data : Str)
  | dir
deriving DecidableEq, Repr

/-- The file system below the working directory, as the list of its entries. -/
abbrev FS := List (Path × Node)

/-- The node at a path; the working directory `[]` always exists. -/
def fsFind : FS → Path → Option Node
  | _, [] => some Node.dir
  | [], _ :: _ => none
  | (q, n) :: rest, c :: p => if q = c :: p then some n else fsFind rest (c :: p)

/-- The error of a call on a missing path. -/
def missingErr (fs : FS) (p : Path) : Err :=
  match fsFind fs p.dropLast with
  | some (Node.file _) => Err.fs Errno.ENOTDIR p
  | _ => Err.fs Errno.ENOENT p

/-- Store a node at a path: in place when the path has an entry, else as a new
last entry. -/
def fsSet (fs : FS) (p : Path) (n : Node) : FS :=
  if (fsFind fs p).isSome then fs.map (fun e => if e.1 = p then (p, n) else e)
  else fs ++ [(p, n)]

/-- Drop the entry of a path. -/
def fsRemove (fs : FS) (p : Path) : FS :=
  fs.filter (fun e => decide (e.1 ≠ p))

/-- The name of `q` when `q` is an entry directly inside `dir`. -/
def childName (dir q : Path) : Option Str :=
  if q ≠ [] ∧ q.dropLast = dir then q.getLast? else none

/-- The names of the entries directly inside `dir`, in file system order. -/
def children (fs : FS) (dir : Path) : List Str :=
  fs.filterMap (fun e => childName dir e.1)

/-- The entries below a directory, with their contents, in file system order. -/
def folderFiles (fs : FS) (dir : Path) : FS :=
  fs.filter (fun e => decide (dir <+: e.1 ∧ e.1 ≠ dir))

/-- The content of the regular file at a path, when there is one. -/
def fileAt (fs : FS) (p : Path) : Option Str :=
  match fsFind fs p with
  | some (Node.file data) => some data
  | _ => none

/-- A path that is not an entry below `dir`. -/
def outside (dir p : Path) : Prop :=
  ¬ (dir <+: p ∧ p ≠ dir)

/-- No path has two entries. -/
def uniqueKeys (fs : FS) : Prop :=
  (fs.map Prod.fst).Nodup

/-- Every entry directly inside `dir` is a regular file. -/
def onlyFiles (fs : FS) (dir : Path) : Prop :=
  ∀ e ∈ fs, childName dir e.1 ≠ none → e.2 ≠ Node.dir

/-- A file system without double entries in which `dir`, which is not the
working directory, is absent or is a directory that holds only regular files. -/
def cleanStaging (fs : FS) (dir : Path) : Prop :=
  uniqueKeys fs ∧ dir ≠ [] ∧ onlyFiles fs dir ∧
    (fsFind fs dir = none ∨ fsFind fs dir = some Node.dir)

/-- Node.js `fs.existsSync(p)`. -/
def existsSync (fs : FS) (p : Path) : Bool :=
  (fsFind fs p).isSome

/-- Node.js `fs.mkdirSync(p)`, not recursive: the path must be new and its
parent a directory. -/
def mkdirSync (fs : FS) (p : Path) : Except Err FS :=
  match fsFind fs p with
  | some _ => Except.error (Err.fs Errno.EEXIST p)
  | none =>
    match fsFind fs p.dropLast with
    | some Node.dir => Except.ok (fsSet fs p Node.dir)
    | _ => Except.error (missingErr fs p)

/-- The order in which `readdirSync` returns names: libuv's `scandir` sorts
them with `strcmp`, which on UTF-8 is the lexicographic order of the code
points. -/
def sortNames (names : List Str) : List Str :=
  names.insertionSort (fun a b => a ≤ b)

/-- Node.js `fs.readdirSync(p)`: the names of the entries, sorted. -/
def readdirSync (fs : FS) (p : Path) : Except Err (List Str) :=
  match fsFind fs p with
  | some Node.dir => Except.ok (sortNames (children fs p))
  | some (Node.file _) => Except.error (Err.fs Errno.ENOTDIR p)
  | none => Except.error (missingErr fs p)

/-- Node.js `fs.unlinkSync(p)`: removes a regular file, throws on a directory. -/
def unlinkSync (fs : FS) (p : Path) : Except Err FS :=
  match fsFind fs p with
  | some (Node.file _) => Except.ok (fsRemove fs p)
  | some Node.dir => Except.error (Err.fs Errno.EISDIR p)
  | none => Except.error (missingErr fs p)

/-- Node.js `fs.rmdirSync(p)`: removes an empty directory. -/
def rmdirSync (fs : FS) (p : Path) : Except Err FS :=
  match fsFind fs p with
  | some Node.dir =>
    if children fs p = [] then Except.ok (fsRemove fs p)
    else Except.error (Err.fs Errno.ENOTEMPTY p)
  | some (Node.file _) => Except.error (Err.fs Errno.ENOTDIR p)
  | none => Except.error (missingErr fs p)

/-- Node.js `fs.writeFileSync(p, data)`: creates or overwrites a regular file
in an existing directory. -/
def writeFileSync (fs : FS) (p : Path) (data : Str) : Except Err FS :=
  match fsFind fs p with
  | some Node.dir => Except.error (Err.fs Errno.EISDIR p)
  | some (Node.file _) => Except.ok (fsSet fs p (Node.file data))
  | none =>
    match fsFind fs p.dropLast with
    | some Node.dir => Except.ok (fsSet fs p (Node.file data))
    | _ => Except.error (missingErr fs p)

/-- Node.js `fs.copyFileSync(src, dst)`: `dst` is created or overwritten. -/
def copyFileSync (fs : FS) (src dst : Path) : Except Err FS :=
  match fsFind fs src with
  | some (Node.file data) => writeFileSync fs dst data
  | some Node.dir => Except.error (Err.fs Errno.EISDIR src)
  | none => Except.error (missingErr fs src)

/-! ## The world of one command object -/

/-- Lines the commands print, by kind; the text of a line, which for the
success line and the first error line names the version and the project, is
not modelled. -/
inductive LogLine
  | retryNotice (tryNumber : Int)
  | success
  | errorContext
  | errorCause (e : Err)
deriving DecidableEq, Repr

/-- The try numbers of the retry notices of a log, in order. -/
def retryNotices (log : List LogLine) : List Int :=
  log.filterMap (fun l => match l with
    | LogLine.retryNotice n => some n
    | _ => none)

/-- The command object's mutable field `_tryPushCount`, the file system, and a
record of what has been done so far: the push and pull calls issued to the
remote client, the invocations of `_cleanupTmpFolder`, the `copyFileSync`
calls that returned (source, destination), and the lines printed. -/
structure World where
  fs : FS
  _tryPushCount : Int
  pushCalls : Nat
  pullCalls : Nat
  cleanupCalls : Nat
  copies : List (Path × Path)
  log : List LogLine
deriving DecidableEq, Repr

/-- How the promise returned by `start` ends. -/
inductive Settled
  | resolved (value : Option Payload)
  | rejected (cause : Err)
  | pending
deriving DecidableEq, Repr

/-- The options the modelled methods read (camel-cased as ember-cli passes
them); `tmpDir` and `translationFolder` are given normalised. `projectId` and
`version` are `none` when the request lacks them (`undefined`); `start` reads
them for its messages and hands them to the remote call, nothing else. -/
structure Options where
  projectId : Option Str
  version : Option Str
  translationFolder : Path
  tmpDir : Path
  excludeFiles : List Str
  tryCount : Int
  getZanataLocaleFunction : Str → Str
  parseZanataLocaleFunction : Str → Str

/-- Default of `get-zanata-locale-function` in `push.js`. -/
def defaultGetZanataLocaleFunction (locale : Str) : Str :=
  replace locale "_".toList "-".toList

/-- Default of `parse-zanata-locale-function` in `pull.js`. -/
def defaultParseZanataLocaleFunction (locale : Str) : Str :=
  replace locale "-".toList "_".toList

/-! ## lib/commands/abstract.js -/

/-- The method `_createTmpFolder(tmpDir)`; a throwing `mkdirSync` leaves what
was created before it. -/
def _createTmpFolder (tmpDir : Path) (fs : FS) : FS × Except Err Unit :=
  match (if !existsSync fs ["tmp".toList] then mkdirSync fs ["tmp".toList]
      else Except.ok fs) with
  | Except.error e => (fs, Except.error e)
  | Except.ok fs1 =>
    match (if !existsSync fs1 tmpDir then mkdirSync fs1 tmpDir else Except.ok fs1) with
    | Except.error e => (fs1, Except.error e)
    | Except.ok fs2 => (fs2, Except.ok ())

/-- The loop `files.forEach((file) => fs.unlinkSync(path.join(dir, file)))`. -/
def unlinkEach (dir : Path) : List Str → FS → FS × Except Err Unit
  | [], fs => (fs, Except.ok ())
  | file :: rest, fs =>
    match unlinkSync fs (dir ++ [file]) with
    | Except.ok fs1 => unlinkEach dir rest fs1
    | Except.error e => (fs, Except.error e)

/-- The method `_cleanupTmpFolder(tmpDir)`: every invocation is counted in
`cleanupCalls`, whether it returns or throws. -/
def _cleanupTmpFolder (tmpDir : Path) (w : World) : World × Except Err Unit :=
  let w0 : World := { w with cleanupCalls := w.cleanupCalls + 1 }
  match readdirSync w0.fs tmpDir with
  | Except.error e => (w0, Except.error e)
  | Except.ok files =>
    match unlinkEach tmpDir files w0.fs with
    | (fs1, Except.error e) => ({ w0 with fs := fs1 }, Except.error e)
    | (fs1, Except.ok ()) =>
      match rmdirSync fs1 tmpDir with
      | Except.error e => ({ w0 with fs := fs1 }, Except.error e)
      | Except.ok fs2 => ({ w0 with fs := fs2 }, Except.ok ())

/-- JavaScript truthiness of `newFileName` (`null` or a string). -/
def truthy : Option Str → Bool
  | none => false
  | some s => !s.isEmpty

/-- The `.catch((error) => ...)` callback that ends the chain of both `start`
methods (they differ in the message text only): two error lines, cleanup, then
`reject(error)`. When cleanup throws, `reject` is never reached and the
promise returned by `start` stays pending. -/
def catchHandler (opts : Options) (error : Err) (w : World) : World × Settled :=
  match _cleanupTmpFolder opts.tmpDir
      { w with log := w.log ++ [LogLine.errorContext, LogLine.errorCause error] } with
  | (w1, Except.ok ()) => (w1, Settled.rejected error)
  | (w1, Except.error _) => (w1, Settled.pending)

/-! ## lib/utils/push.js, lib/commands/push.js -/

/-- One push call (`lib/utils/push.js`): the promise settles with the terminal
event the remote emits for this call, `end_push` data or the `fail` error. -/
def push (remote : Nat → Except Err Payload) (w : World) : World × Except Err Payload :=
  ({ w with pushCalls := w.pushCalls + 1 }, remote w.pushCalls)

namespace Push

set_option linter.unusedVariables false in
/-- Retry controller of `push.js`: count the attempt, push, and on a failure
either reject (counter has reached `tryCount`) or print the notice and recurse. -/
def _tryPush (remote : Nat → Except Err Payload) (maxCount : Int) (w : World) :
    World × Except Err Payload :=
  match h : push remote { w with _tryPushCount := w._tryPushCount + 1 } with
  | (w2, Except.ok data) => (w2, Except.ok data)
  | (w2, Except.error error) =>
    if w2._tryPushCount ≥ maxCount then (w2, Except.error error)
    else
      _tryPush remote maxCount
        { w2 with log := w2.log ++ [LogLine.retryNotice w2._tryPushCount] }
termination_by (maxCount - w._tryPushCount).toNat
decreasing_by
  simp only [push, Prod.mk.injEq] at h
  obtain ⟨h1, -⟩ := h
  subst h1
  simp only [ge_iff_le, not_le] at *
  omega

/-- The value of `fileName` in `_prepareFolder`:
`options.getZanataLocaleFunction(locale).replace('-', '_')`. -/
def fileName (opts : Options) (locale : Str) : Str :=
  replace (opts.getZanataLocaleFunction locale) "-".toList "_".toList

/-- The value of `newFileName` that `_prepareFolder` computes for a file that
is not excluded. -/
def newFileName (opts : Options) (file : Str) : Option Str :=
  if endsWith file ".pot".toList then some file
  else if endsWith file ".po".toList then
    some (fileName opts (splitHead file ".po".toList) ++ ".po".toList)
  else none

/-- The `files.forEach` loop of `_prepareFolder`. `path.join(dir, name)` is
`dir ++ [name]`: a name is taken as one path component, which the names of a
listing are; a locale function whose result holds `/`, or is `..`, is outside
this reading. -/
def copyEach (opts : Options) : List Str → World → World × Except Err Unit
  | [], w => (w, Except.ok ())
  | file :: rest, w =>
    if file ∈ opts.excludeFiles then copyEach opts rest w
    else
      match newFileName opts file with
      | some name =>
        if truthy (some name) then
          match copyFileSync w.fs (opts.translationFolder ++ [file]) (opts.tmpDir ++ [name]) with
          | Except.ok fs1 =>
            copyEach opts rest
              { w with fs := fs1,
                       copies := w.copies ++
                         [(opts.translationFolder ++ [file], opts.tmpDir ++ [name])] }
          | Except.error e => (w, Except.error e)
        else copyEach opts rest w
      | none => copyEach opts rest w

/-- The copy that the loop body of `_prepareFolder` makes for one file, when
`copyFileSync` does not throw. -/
def copyFor (opts : Options) (file : Str) : Option (Path × Path) :=
  if file ∈ opts.excludeFiles then none
  else
    match newFileName opts file with
    | some name =>
      if truthy (some name) then some (opts.translationFolder ++ [file], opts.tmpDir ++ [name])
      else none
    | none => none

/-- The method `_prepareFolder(options)` of `push.js`; an exception thrown in
the promise executor rejects the promise. -/
def _prepareFolder (opts : Options) (w : World) : World × Except Err Unit :=
  match _createTmpFolder opts.tmpDir w.fs with
  | (fs1, Except.error e) => ({ w with fs := fs1 }, Except.error e)
  | (fs1, Except.ok ()) =>
    match readdirSync fs1 opts.translationFolder with
    | Except.error e => ({ w with fs := fs1 }, Except.error e)
    | Except.ok files => copyEach opts files { w with fs := fs1 }

/-- The first `.then` callback of `start` run on the staged world:
`this._tryPushCount = 0; return this._tryPush(project, options)`. -/
def transfer (remote : Nat → Except Err Payload) (opts : Options) (w : World) :
    World × Except Err Payload :=
  _tryPush remote opts.tryCount { (_prepareFolder opts w).1 with _tryPushCount := 0 }

/-- The promise chain of `start(options)` in `push.js`: staging, then the
counter reset and the retry controller, then the success callback, with the
`.catch` callback behind all three. An exception in a callback, the success
callback included, rejects the chain and is handled by the `.catch` callback.
The statements before the chain (`parseLocalesForZanata`, `_getProject`) only
build the arguments of the remote call. -/
def start (remote : Nat → Except Err Payload) (opts : Options) (w : World) : World × Settled :=
  match _prepareFolder opts w with
  | (w1, Except.error e) => catchHandler opts e w1
  | (w1, Except.ok ()) =>
    match _tryPush remote opts.tryCount { w1 with _tryPushCount := 0 } with
    | (w2, Except.error e) => catchHandler opts e w2
    | (w2, Except.ok data) =>
      match _cleanupTmpFolder opts.tmpDir { w2 with log := w2.log ++ [LogLine.success] } with
      | (w3, Except.ok ()) => (w3, Settled.resolved (some data))
      | (w3, Except.error e) => catchHandler opts e w3

end Push

/-! ## lib/utils/pull.js, lib/commands/pull.js -/

/-- The payload of a `data_pull` event. -/
structure Item where
  type : Str
  name : Str
  locale : Str
  data : Str
deriving DecidableEq, Repr

/-- What the remote emits for one pull call: incremental items, then the
terminal event (`end_pull` data or the `fail` error). -/
structure PullScript where
  items : List Item
  terminal : Except Err Payload

/-- The `data_pull` listener. An exception of `writeFileSync` is thrown into
the client library's emitter, outside this repository: the model leaves the
file system as it is for that item and goes on to the next event. -/
def onDataPull (opts : Options) (fs : FS) (item : Item) : FS :=
  let fileName : Str :=
    if item.type = "pot".toList then item.name ++ ".pot".toList
    else item.locale ++ ".po".toList
  match writeFileSync fs (opts.tmpDir ++ [fileName]) item.data with
  | Except.ok fs1 => fs1
  | Except.error _ => fs

/-- One pull call (`lib/utils/pull.js`). -/
def pull (script : PullScript) (opts : Options) (w : World) : World × Except Err Payload :=
  ({ w with pullCalls := w.pullCalls + 1,
            fs := script.items.foldl (onDataPull opts) w.fs },
   script.terminal)

namespace Pull

/-- The method `_prepareFolder(options)` of `pull.js`. -/
def _prepareFolder (opts : Options) (w : World) : World × Except Err Unit :=
  match _createTmpFolder opts.tmpDir w.fs with
  | (fs1, Except.error e) => ({ w with fs := fs1 }, Except.error e)
  | (fs1, Except.ok ()) => ({ w with fs := fs1 }, Except.ok ())

/-- The value of `newFileName` that `_moveToOutput` computes for a file. -/
def newFileName (opts : Options) (file : Str) : Option Str :=
  if includes file ".pot".toList then some file
  else if includes file ".po".toList then
    some (opts.parseZanataLocaleFunction (splitHead file ".po".toList) ++ ".po".toList)
  else none

/-- The `files.forEach` loop of `_moveToOutput`, with `path.join(dir, name)`
read as `dir ++ [name]`, as in the loop of push. -/
def copyEach (opts : Options) : List Str → World → World × Except Err Unit
  | [], w => (w, Except.ok ())
  | file :: rest, w =>
    match newFileName opts file with
    | some name =>
      if truthy (some name) then
        match copyFileSync w.fs (opts.tmpDir ++ [file]) (opts.translationFolder ++ [name]) with
        | Except.ok fs1 =>
          copyEach opts rest
            { w with fs := fs1,
                     copies := w.copies ++
                       [(opts.tmpDir ++ [file], opts.translationFolder ++ [name])] }
        | Except.error e => (w, Except.error e)
      else copyEach opts rest w
    | none => copyEach opts rest w

/-- The method `_moveToOutput(options)`. -/
def _moveToOutput (opts : Options) (w : World) : World × Except Err Unit :=
  match readdirSync w.fs opts.tmpDir with
  | Except.error e => (w, Except.error e)
  | Except.ok files => copyEach opts files w

/-- The promise chain of `start(options)` in `pull.js`: staging, the pull
call, placement, the 1 ms timer (which changes nothing in the world), then
the success callback, which calls `resolve()` without a value, with the
`.catch` callback behind all of them. -/
def start (script : PullScript) (opts : Options) (w : World) : World × Settled :=
  match _prepareFolder opts w with
  | (w1, Except.error e) => catchHandler opts e w1
  | (w1, Except.ok ()) =>
    match pull script opts w1 with
    | (w2, Except.error e) => catchHandler opts e w2
    | (w2, Except.ok _) =>
      match _moveToOutput opts w2 with
      | (w3, Except.error e) => catchHandler opts e w3
      | (w3, Except.ok ()) =>
        match _cleanupTmpFolder opts.tmpDir { w3 with log := w3.log ++ [LogLine.success] } with
        | (w4, Except.ok ()) => (w4, Settled.resolved none)
        | (w4, Except.error e) => catchHandler opts e w4

end Pull

/-! ## Inputs of the examples -/

/-- The defaults of `availableOptions`: the five of `push.js` that the model
reads, and `parse-zanata-locale-function` of `pull.js`; a project id and a
version, which have no default, are given. -/
def defaultOptions : Options :=
  { projectId := some "my-project".toList,
    version := some "1.0".toList,
    translationFolder := ["translations".toList],
    tmpDir := ["tmp".toList, ".zanata".toList],
    excludeFiles := ["excluded.pot".toList],
    tryCount := 4,
    getZanataLocaleFunction := defaultGetZanataLocaleFunction,
    parseZanataLocaleFunction := defaultParseZanataLocaleFunction }

/-- Every push call fails; call `i` fails with the digit `i` as its message. -/
def c1Remote : Nat → Except Err Payload :=
  fun i => Except.error (Err.remote [Char.ofNat (48 + i)])

/-- Fails on the first two calls, succeeds from the third on. -/
def c2Remote : Nat → Except Err Payload :=
  fun i => if i < 2 then Except.error (Err.remote "flaky".toList) else Except.ok "done".toList

/-- An empty working directory, nothing done yet. -/
def emptyWorld : World :=
  { fs := [], _tryPushCount := 0, pushCalls := 0, pullCalls := 0, cleanupCalls := 0,
    copies := [], log := [] }

/-- A translation folder holding `source.pot`, `en.po`, `zh-Hans.po` and
`excluded.pot`; no `tmp` directory yet. -/
def pushWorld : World :=
  { fs := [(["translations".toList], Node.dir),
           (["translations".toList, "source.pot".toList], Node.file "S".toList),
           (["translations".toList, "en.po".toList], Node.file "E".toList),
           (["translations".toList, "zh-Hans.po".toList], Node.file "Z".toList),
           (["translations".toList, "excluded.pot".toList], Node.file "X".toList)],
    _tryPushCount := 0, pushCalls := 0, pullCalls := 0, cleanupCalls := 0,
    copies := [], log := [] }

/-- Every push call succeeds. -/
def okRemote : Nat → Except Err Payload :=
  fun _ => Except.ok "done".toList

/-- The world of `pushWorld` in which the staging directory `tmp/.zanata` is
already there and holds a subdirectory `old`. -/
def dirtyWorld : World :=
  { pushWorld with
    fs := pushWorld.fs ++
      [(["tmp".toList], Node.dir),
       (["tmp".toList, ".zanata".toList], Node.dir),
       (["tmp".toList, ".zanata".toList, "old".toList], Node.dir)] }

/-- A translation folder holding `en.po`; no `tmp` directory yet. -/
def pullWorld : World :=
  { fs := [(["translations".toList], Node.dir),
           (["translations".toList, "en.po".toList], Node.file "local".toList)],
    _tryPushCount := 0, pushCalls := 0, pullCalls := 0, cleanupCalls := 0,
    copies := [], log := [] }

/-- Two items arrive, then the `fail` event. -/
def failScript : PullScript :=
  { items := [{ type := "po".toList, name := "messages".toList, locale := "de".toList,
                data := "D".toList },
              { type := "pot".toList, name := "source".toList, locale := [],
                data := "S".toList }],
    terminal := Except.error (Err.remote "fail".toList) }

/-- The same two items, then `end_pull`. -/
def okScript : PullScript :=
  { items := failScript.items, terminal := Except.ok "summary".toList }

/-- The world of `pushWorld` in which `tmp` is a regular file. -/
def tmpFileWorld : World :=
  { pushWorld with fs := pushWorld.fs ++ [(["tmp".toList], Node.file [])] }

/-- The world of `pullWorld` in which the staging directory is already there
and holds a file `en.po.orig`. -/
def staleWorld : World :=
  { pullWorld with
    fs := pullWorld.fs ++
      [(["tmp".toList], Node.dir),
       (["tmp".toList, ".zanata".toList], Node.dir),
       (["tmp".toList, ".zanata".toList, "en.po.orig".toList], Node.file "stale".toList)] }

/-- The pull scenario of the specification: translations for `en` and `de`
and one source document arrive, then `end_pull`. -/
def scenarioScript : PullScript :=
  { items := [{ type := "po".toList, name := "source".toList, locale := "en".toList,
                data := "E".toList },
              { type := "po".toList, name := "source".toList, locale := "de".toList,
                data := "D".toList },
              { type := "pot".toList, name := "source".toList, locale := [],
                data := "S".toList }],
    terminal := Except.ok "summary".toList }

/-- An empty translation folder; no `tmp` directory yet. -/
def freshWorld : World :=
  { emptyWorld with fs := [(["translations".toList], Node.dir)] }

/-- The retry scenario of the specification: the first three push calls fail,
the fourth succeeds. -/
def flakyRemote : Nat → Except Err Payload :=
  fun i => if i < 3 then Except.error (Err.remote "flaky".toList) else Except.ok "done".toList

/-- The default options of a request that lacks the project id. -/
def noProjectOptions : Options :=
  { defaultOptions with projectId := none }

/-- The default options of a request that lacks the version. -/
def noVersionOptions : Options :=
  { defaultOptions with version := none }

/-- The world of `pullWorld` in which the staging directory is already there
and empty. -/
def emptyStagingWorld : World :=
  { pullWorld with
    fs := pullWorld.fs ++
      [(["tmp".toList], Node.dir),
       (["tmp".toList, ".zanata".toList], Node.dir)] }


/-- The world in which `_tryPush` makes its next attempt after a failed
attempt on `w` that is retried. -/
def retried (w : World) : World :=
  { w with _tryPushCount := w._tryPushCount + 1, pushCalls := w.pushCalls + 1,
           log := w.log ++ [LogLine.retryNotice (w._tryPushCount + 1)] }

/-- The world of `dirtyWorld` after staging with the default options, with
the counter reset: the world on which `start` enters the retry controller. -/
def stagedDirtyWorld : World :=
  { (Push._prepareFolder defaultOptions dirtyWorld).1 with _tryPushCount := 0 }

/-- The remote is down for the first five push calls and answers from the
sixth on. -/
def recoveringRemote : Nat → Except Err Payload :=
  fun i => if i < 5 then Except.error (Err.remote "down".toList) else Except.ok "done".toList

/-- The world of `pushWorld` after staging with the default options, with the
counter reset: the world on which `start` enters the retry controller. -/
def stagedPushWorld : World :=
  { (Push._prepareFolder defaultOptions pushWorld).1 with _tryPushCount := 0 }
/-! # Theorems -/

/-! ## Strings -/

theorem replace_nil (a b : Char) : replace [] [a] [b] = [] := by
  simp [replace, startsWith]

theorem replace_cons (a b c : Char) (s : Str) :
    replace (c :: s) [a] [b] = if c = a then b :: s else c :: replace s [a] [b] := by
  by_cases h : c = a <;> simp [replace, startsWith, h]

theorem replace_of_not_mem (a b : Char) (s : Str) (h : a ∉ s) : replace s [a] [b] = s := by
  induction s with
  | nil => exact replace_nil a b
  | cons c t ih =>
    have hc : c ≠ a := fun e => h (by simp [e])
    have ht : a ∉ t := fun e => h (by simp [e])
    rw [replace_cons, if_neg hc, ih ht]

theorem replace_replace_of_not_mem (a b : Char) (s : Str) (h : a ∉ s) :
    replace (replace s [b] [a]) [a] [b] = s := by
  induction s with
  | nil => simp [replace_nil]
  | cons c t ih =>
    have hc : c ≠ a := fun e => h (by simp [e])
    have ht : a ∉ t := fun e => h (by simp [e])
    rw [replace_cons]
    by_cases hb : c = b
    · rw [if_pos hb, replace_cons, if_pos rfl, hb]
    · rw [if_neg hb, replace_cons, if_neg hc, ih ht]

theorem count_replace_self (a b : Char) (hab : a ≠ b) (s : Str) (h : a ∈ s) :
    (replace s [a] [b]).count a + 1 = s.count a := by
  induction s with
  | nil => simp at h
  | cons c t ih =>
    rw [replace_cons]
    by_cases hc : c = a
    · subst hc
      simp [List.count_cons, Ne.symm hab]
    · have ht : a ∈ t := by
        rcases List.mem_cons.mp h with e | e
        · exact absurd e.symm hc
        · exact e
      rw [if_neg hc]
      simp only [List.count_cons, beq_iff_eq, hc, if_false]
      simpa using ih ht

theorem count_replace_other (a b : Char) (hab : a ≠ b) (s : Str) :
    s.count b ≤ (replace s [a] [b]).count b := by
  induction s with
  | nil => simp
  | cons c t ih =>
    rw [replace_cons]
    by_cases hc : c = a
    · subst hc
      simp [List.count_cons, hab]
    · rw [if_neg hc]
      simp only [List.count_cons]
      omega

theorem count_replace_other_le (a b : Char) (s : Str) :
    (replace s [a] [b]).count b ≤ s.count b + 1 := by
  induction s with
  | nil => simp [replace_nil]
  | cons c t ih =>
    rw [replace_cons]
    by_cases hc : c = a
    · rw [if_pos hc]
      simp only [List.count_cons, beq_self_eq_true, if_true]
      omega
    · rw [if_neg hc]
      simp only [List.count_cons]
      omega

theorem endsWith_po_not_pot (s : Str) (h : endsWith s ".po".toList = true) :
    endsWith s ".pot".toList = false := by
  unfold endsWith at *
  have e1 : (".po".toList).reverse = ['o', 'p', '.'] := by decide
  have e2 : (".pot".toList).reverse = ['t', 'o', 'p', '.'] := by decide
  rw [e1] at h
  rw [e2]
  cases hs : s.reverse with
  | nil => simp [startsWith]
  | cons c t =>
    rw [hs] at h
    simp only [startsWith] at h ⊢
    by_cases hc : c = 'o'
    · subst hc
      simp
    · simp [hc] at h

theorem endsWith_ne_nil (s suf : Str) (hsuf : suf ≠ []) (h : endsWith s suf = true) :
    s ≠ [] := by
  intro hs
  subst hs
  unfold endsWith at h
  cases hr : suf.reverse with
  | nil => exact hsuf (List.reverse_eq_nil_iff.mp hr)
  | cons c t => rw [hr] at h; simp [startsWith] at h

theorem startsWith_append_self (p s : Str) : startsWith (p ++ s) p = true := by
  induction p with
  | nil => cases s <;> rfl
  | cons c t ih => simpa [startsWith] using ih

theorem endsWith_append_self (s suf : Str) : endsWith (s ++ suf) suf = true := by
  unfold endsWith
  rw [List.reverse_append]
  exact startsWith_append_self _ _

theorem splitHead_append_po (stem : Str) (h : includes stem ".po".toList = false) :
    splitHead (stem ++ ".po".toList) ".po".toList = stem := by
  have e : ".po".toList = ['.', 'p', 'o'] := rfl
  rw [e] at h ⊢
  induction stem with
  | nil => simp [splitHead, startsWith]
  | cons c t ih =>
    unfold includes at h
    by_cases hs : startsWith (c :: t) ['.', 'p', 'o'] = true
    · rw [if_pos hs] at h
      exact absurd h (by decide)
    · rw [if_neg hs] at h
      have hs2 : startsWith (c :: t ++ ['.', 'p', 'o']) ['.', 'p', 'o'] = false := by
        match t, hs with
        | [], _ => simp [startsWith]
        | [d], _ => simp [startsWith]
        | d :: e :: r, hs => simpa [startsWith] using hs
      show splitHead (c :: (t ++ ['.', 'p', 'o'])) ['.', 'p', 'o'] = c :: t
      unfold splitHead
      rw [if_neg (by rw [← List.cons_append, hs2]; decide), ih h]

/-! ## The file system -/

theorem fsFind_root (fs : FS) : fsFind fs [] = some Node.dir := by
  cases fs <;> rfl

theorem fsFind_cons (q p : Path) (m : Node) (rest : FS) (hp : p ≠ []) :
    fsFind ((q, m) :: rest) p = if q = p then some m else fsFind rest p := by
  cases p with
  | nil => exact absurd rfl hp
  | cons c t => rfl

theorem fsFind_some_mem (p : Path) (n : Node) (hp : p ≠ []) :
    ∀ fs : FS, fsFind fs p = some n → (p, n) ∈ fs := by
  intro fs
  induction fs with
  | nil =>
    intro h
    cases p with
    | nil => exact absurd rfl hp
    | cons c t => simp [fsFind] at h
  | cons e rest ih =>
    intro h
    cases p with
    | nil => exact absurd rfl hp
    | cons c t =>
      obtain ⟨q, m⟩ := e
      simp only [fsFind] at h
      by_cases hq : q = c :: t
      · rw [if_pos hq] at h
        simp only [Option.some.injEq] at h
        subst h
        subst hq
        exact List.mem_cons_self _ _
      · rw [if_neg hq] at h
        exact List.mem_cons_of_mem _ (ih h)

theorem fsFind_not_mem (p : Path) :
    ∀ fs : FS, fsFind fs p = none → p ∉ fs.map Prod.fst := by
  intro fs
  induction fs with
  | nil => intro _; simp
  | cons e rest ih =>
    intro h
    cases p with
    | nil => simp [fsFind] at h
    | cons c t =>
      obtain ⟨q, m⟩ := e
      simp only [fsFind] at h
      by_cases hq : q = c :: t
      · rw [if_pos hq] at h; simp at h
      · rw [if_neg hq] at h
        simp only [List.map_cons, List.mem_cons, not_or]
        exact ⟨fun e => hq e.symm, ih h⟩

theorem fsFind_of_mem (p : Path) (n : Node) (hp : p ≠ []) :
    ∀ fs : FS, uniqueKeys fs → (p, n) ∈ fs → fsFind fs p = some n := by
  intro fs
  induction fs with
  | nil => intro _ h; simp at h
  | cons e rest ih =>
    intro hu hm
    cases p with
    | nil => exact absurd rfl hp
    | cons c t =>
      obtain ⟨q, m⟩ := e
      unfold uniqueKeys at hu
      simp only [List.map_cons, List.nodup_cons] at hu
      simp only [fsFind]
      rcases List.mem_cons.mp hm with h | h
      · simp only [Prod.mk.injEq] at h
        rw [if_pos h.1.symm, h.2]
      · have hne : q ≠ c :: t := by
          intro e
          apply hu.1
          rw [e]
          exact List.mem_map_of_mem Prod.fst h
        rw [if_neg hne]
        exact ih hu.2 h

theorem fsFind_fsRemove_ne (p q : Path) (h : p ≠ q) :
    ∀ fs : FS, fsFind (fsRemove fs p) q = fsFind fs q := by
  intro fs
  cases q with
  | nil => cases fs <;> simp [fsFind]
  | cons c t =>
    induction fs with
    | nil => rfl
    | cons e rest ih =>
      obtain ⟨r, m⟩ := e
      unfold fsRemove at ih ⊢
      by_cases hr : r = p
      · subst hr
        simp only [List.filter_cons, ne_eq, not_true_eq_false, decide_False]
        simp only [fsFind, if_neg h]
        exact ih
      · simp only [List.filter_cons, ne_eq, hr, not_false_eq_true, decide_True, if_true]
        simp only [fsFind]
        by_cases hc : r = c :: t
        · rw [if_pos hc, if_pos hc]
        · rw [if_neg hc, if_neg hc]
          exact ih

theorem fsFind_fsRemove_self (p : Path) (hp : p ≠ []) :
    ∀ fs : FS, fsFind (fsRemove fs p) p = none := by
  intro fs
  induction fs with
  | nil =>
    cases p with
    | nil => exact absurd rfl hp
    | cons c t => rfl
  | cons e rest ih =>
    obtain ⟨q, m⟩ := e
    unfold fsRemove at ih ⊢
    by_cases hq : q = p
    · simp only [List.filter_cons, hq, ne_eq, not_true_eq_false, decide_False]
      exact ih
    · simp only [List.filter_cons, ne_eq, hq, not_false_eq_true, decide_True, if_true]
      rw [fsFind_cons _ _ _ _ hp, if_neg hq]
      exact ih

theorem fsFind_append_of_none (p : Path) (n : Node) (hp : p ≠ []) :
    ∀ fs : FS, fsFind fs p = none → fsFind (fs ++ [(p, n)]) p = some n := by
  intro fs
  induction fs with
  | nil =>
    intro _
    rw [List.nil_append, fsFind_cons _ _ _ _ hp, if_pos rfl]
  | cons e rest ih =>
    obtain ⟨q, m⟩ := e
    intro h
    rw [fsFind_cons _ _ _ _ hp] at h
    rw [List.cons_append, fsFind_cons _ _ _ _ hp]
    by_cases hq : q = p
    · rw [if_pos hq] at h; simp at h
    · rw [if_neg hq] at h ⊢
      exact ih h

theorem fsFind_map_set_self (p : Path) (n : Node) (hp : p ≠ []) :
    ∀ fs : FS, (fsFind fs p).isSome = true →
      fsFind (fs.map (fun e => if e.1 = p then (p, n) else e)) p = some n := by
  intro fs
  induction fs with
  | nil =>
    intro h
    cases p with
    | nil => exact absurd rfl hp
    | cons c t => simp [fsFind] at h
  | cons e rest ih =>
    obtain ⟨q, m⟩ := e
    intro h
    rw [fsFind_cons _ _ _ _ hp] at h
    rw [List.map_cons]
    by_cases hq : q = p
    · simp only [hq, if_true]
      rw [fsFind_cons _ _ _ _ hp, if_pos rfl]
    · rw [if_neg hq] at h
      simp only [hq, if_false]
      rw [fsFind_cons _ _ _ _ hp, if_neg hq]
      exact ih h

theorem fsFind_fsSet_self (fs : FS) (p : Path) (n : Node) (hp : p ≠ []) :
    fsFind (fsSet fs p n) p = some n := by
  unfold fsSet
  split
  · next h => exact fsFind_map_set_self p n hp fs h
  · next h =>
    apply fsFind_append_of_none p n hp
    cases hx : fsFind fs p with
    | none => rfl
    | some x => rw [hx] at h; simp at h

theorem fsFind_map_set_ne (p q : Path) (n : Node) (h : q ≠ p) :
    ∀ fs : FS, fsFind (fs.map (fun e => if e.1 = p then (p, n) else e)) q = fsFind fs q := by
  intro fs
  by_cases hq : q = []
  · rw [hq, fsFind_root, fsFind_root]
  · induction fs with
    | nil => rfl
    | cons e rest ih =>
      obtain ⟨r, m⟩ := e
      rw [List.map_cons]
      by_cases hr : r = p
      · simp only [hr, if_true]
        rw [fsFind_cons _ _ _ _ hq, fsFind_cons _ _ _ _ hq, if_neg (Ne.symm h),
          if_neg (Ne.symm h)]
        exact ih
      · simp only [hr, if_false]
        rw [fsFind_cons _ _ _ _ hq, fsFind_cons _ _ _ _ hq, ih]

theorem fsFind_append_ne (p q : Path) (n : Node) (h : q ≠ p) :
    ∀ fs : FS, fsFind (fs ++ [(p, n)]) q = fsFind fs q := by
  intro fs
  by_cases hq : q = []
  · rw [hq, fsFind_root, fsFind_root]
  · induction fs with
    | nil =>
      rw [List.nil_append, fsFind_cons _ _ _ _ hq, if_neg (Ne.symm h)]
    | cons e rest ih =>
      obtain ⟨r, m⟩ := e
      rw [List.cons_append, fsFind_cons _ _ _ _ hq, fsFind_cons _ _ _ _ hq, ih]

theorem fsFind_fsSet_ne (fs : FS) (p q : Path) (n : Node) (h : q ≠ p) :
    fsFind (fsSet fs p n) q = fsFind fs q := by
  unfold fsSet
  split
  · exact fsFind_map_set_ne p q n h fs
  · exact fsFind_append_ne p q n h fs

theorem self_ne_concat (dir : Path) (name : Str) : dir ≠ dir ++ [name] := by
  intro h
  have := congrArg List.length h
  simp at this

theorem concat_ne_concat (dir : Path) (a b : Str) (h : a ≠ b) : dir ++ [a] ≠ dir ++ [b] := by
  intro e
  exact h (by simpa using e)

theorem childName_concat (dir : Path) (name : Str) :
    childName dir (dir ++ [name]) = some name := by
  simp [childName]

theorem childName_eq_some (dir q : Path) (name : Str) (h : childName dir q = some name) :
    q = dir ++ [name] := by
  unfold childName at h
  split at h
  · next hq =>
    have := List.dropLast_append_getLast? name h
    rw [hq.2] at this
    exact this.symm
  · simp at h

theorem childName_self (dir : Path) (h : dir ≠ []) : childName dir dir = none := by
  unfold childName
  rw [if_neg]
  intro hc
  have := congrArg List.length hc.2
  rw [List.length_dropLast] at this
  have hl : 0 < dir.length := List.length_pos.mpr h
  omega

theorem childName_tmp (dir : Path) (h : dir ≠ []) : childName dir ["tmp".toList] = none := by
  unfold childName
  rw [if_neg]
  intro hc
  exact h (by simpa using hc.2.symm)

/-- Sorting the names of a listing keeps the names. -/
theorem sortNames_perm (names : List Str) : (sortNames names).Perm names :=
  List.perm_insertionSort _ names

theorem mem_sortNames (n : Str) (names : List Str) : n ∈ sortNames names ↔ n ∈ names :=
  (sortNames_perm names).mem_iff

theorem sortNames_nodup (names : List Str) (h : names.Nodup) : (sortNames names).Nodup :=
  (sortNames_perm names).nodup_iff.mpr h

theorem sortNames_nil : sortNames [] = [] := rfl

theorem mem_children (fs : FS) (dir : Path) (name : Str) :
    name ∈ children fs dir ↔ ∃ n, (dir ++ [name], n) ∈ fs := by
  unfold children
  rw [List.mem_filterMap]
  constructor
  · rintro ⟨e, he, hc⟩
    have := childName_eq_some dir e.1 name hc
    exact ⟨e.2, by rw [← this]; exact he⟩
  · rintro ⟨n, hn⟩
    exact ⟨(dir ++ [name], n), hn, childName_concat dir name⟩

theorem children_nodup (dir : Path) :
    ∀ fs : FS, uniqueKeys fs → (children fs dir).Nodup := by
  intro fs
  induction fs with
  | nil => intro _; simp [children]
  | cons e rest ih =>
    intro hu
    unfold uniqueKeys at hu
    simp only [List.map_cons, List.nodup_cons] at hu
    have ih' := ih hu.2
    unfold children at ih' ⊢
    rw [List.filterMap_cons]
    cases hc : childName dir e.1 with
    | none => exact ih'
    | some name =>
      simp only
      rw [List.nodup_cons]
      refine ⟨?_, ih'⟩
      intro hm
      obtain ⟨n, hn⟩ := (mem_children rest dir name).mp hm
      apply hu.1
      rw [childName_eq_some dir e.1 name hc]
      exact List.mem_map_of_mem Prod.fst hn

theorem fsFind_child_of_children_nil (fs : FS) (dir : Path) (name : Str)
    (h : children fs dir = []) : fsFind fs (dir ++ [name]) = none := by
  cases hf : fsFind fs (dir ++ [name]) with
  | none => rfl
  | some n =>
    have hm := fsFind_some_mem (dir ++ [name]) n (by simp) fs hf
    unfold children at h
    have := List.filterMap_eq_nil_iff.mp h _ hm
    rw [childName_concat] at this
    exact absurd this (by simp)

theorem children_fsRemove_nil (fs : FS) (p dir : Path) (h : children fs dir = []) :
    children (fsRemove fs p) dir = [] := by
  unfold children at *
  rw [List.filterMap_eq_nil_iff] at *
  intro e he
  exact h e (List.mem_of_mem_filter he)

theorem map_set_keys (p : Path) (n : Node) (fs : FS) :
    (fs.map (fun e => if e.1 = p then (p, n) else e)).map Prod.fst = fs.map Prod.fst := by
  rw [List.map_map]
  apply List.map_congr_left
  intro e _
  by_cases h : e.1 = p <;> simp [h]

theorem uniqueKeys_fsSet (fs : FS) (p : Path) (n : Node) (h : uniqueKeys fs) :
    uniqueKeys (fsSet fs p n) := by
  unfold fsSet uniqueKeys at *
  split
  · rw [map_set_keys]; exact h
  · next hf =>
    have hnone : fsFind fs p = none := by
      cases hx : fsFind fs p with
      | none => rfl
      | some x => rw [hx] at hf; simp at hf
    rw [List.map_append, List.map_cons, List.map_nil]
    rw [List.nodup_append]
    refine ⟨h, by simp, ?_⟩
    intro a ha hb
    simp only [List.mem_singleton] at hb
    subst hb
    exact fsFind_not_mem _ fs hnone ha

theorem mem_fsSet (fs : FS) (p : Path) (n : Node) (e : Path × Node) (h : e ∈ fsSet fs p n) :
    e ∈ fs ∨ e = (p, n) := by
  unfold fsSet at h
  split at h
  · rw [List.mem_map] at h
    obtain ⟨e0, he0, h0⟩ := h
    by_cases hp : e0.1 = p
    · rw [if_pos hp] at h0; exact Or.inr h0.symm
    · rw [if_neg hp] at h0; exact Or.inl (h0 ▸ he0)
  · rcases List.mem_append.mp h with h | h
    · exact Or.inl h
    · exact Or.inr (by simpa using h)

theorem onlyFiles_fsSet_file (fs : FS) (p dir : Path) (data : Str) (h : onlyFiles fs dir) :
    onlyFiles (fsSet fs p (Node.file data)) dir := by
  intro e he hc
  rcases mem_fsSet fs p _ e he with h1 | h1
  · exact h e h1 hc
  · rw [h1]; simp

theorem onlyFiles_fsSet_other (fs : FS) (p dir : Path) (n : Node)
    (hp : childName dir p = none) (h : onlyFiles fs dir) :
    onlyFiles (fsSet fs p n) dir := by
  intro e he hc
  rcases mem_fsSet fs p _ e he with h1 | h1
  · exact h e h1 hc
  · rw [h1] at hc
    exact absurd hp hc

theorem outside_of_not_under (dir p : Path) (h : ¬ dir <+: p) : outside dir p :=
  fun hp => h hp.1

theorem outside_tmp (dir tmpDir : Path) (h : ¬ dir <+: tmpDir) : outside dir ["tmp".toList] := by
  intro hp
  obtain ⟨h1, h2⟩ := hp
  rcases List.prefix_cons_iff.mp h1 with e | ⟨t, e, ht⟩
  · exact h (e ▸ List.nil_prefix)
  · rw [List.prefix_nil.mp ht] at e
    exact h2 e.symm

theorem outside_child (dir tmpDir : Path) (name : Str) (h : ¬ dir <+: tmpDir) :
    outside dir (tmpDir ++ [name]) := by
  intro hp
  obtain ⟨h1, h2⟩ := hp
  rcases List.prefix_concat_iff.mp h1 with e | e
  · exact h2 e.symm
  · exact h e

theorem folderFiles_map_set (p : Path) (n : Node) (dir : Path) (h : outside dir p) :
    ∀ fs : FS, folderFiles (fs.map (fun e => if e.1 = p then (p, n) else e)) dir
      = folderFiles fs dir := by
  have h1 : decide (dir <+: p ∧ p ≠ dir) = false := decide_eq_false h
  intro fs
  unfold folderFiles
  induction fs with
  | nil => rfl
  | cons e rest ih =>
    by_cases he : e.1 = p
    · have h2 : decide (dir <+: e.1 ∧ e.1 ≠ dir) = false := by rw [he]; exact h1
      simp only [List.map_cons, he, if_true, List.filter_cons, h1]
      simpa using ih
    · simp only [List.map_cons, he, if_false, List.filter_cons]
      rw [ih]

theorem folderFiles_fsSet (fs : FS) (p : Path) (n : Node) (dir : Path) (h : outside dir p) :
    folderFiles (fsSet fs p n) dir = folderFiles fs dir := by
  unfold fsSet
  split
  · exact folderFiles_map_set p n dir h fs
  · have h1 : decide (dir <+: p ∧ p ≠ dir) = false := decide_eq_false h
    unfold folderFiles
    rw [List.filter_append, List.filter_cons, h1]
    simp

theorem folderFiles_fsRemove (fs : FS) (p : Path) (dir : Path) (h : outside dir p) :
    folderFiles (fsRemove fs p) dir = folderFiles fs dir := by
  have h1 : decide (dir <+: p ∧ p ≠ dir) = false := decide_eq_false h
  unfold fsRemove folderFiles
  rw [List.filter_filter]
  apply List.filter_congr
  intro e _
  by_cases he : e.1 = p
  · rw [he, h1]; simp
  · simp [he]

theorem mkdirSync_ok (fs fs' : FS) (p : Path) (h : mkdirSync fs p = Except.ok fs') :
    fs' = fsSet fs p Node.dir := by
  unfold mkdirSync at h
  split at h
  · simp at h
  · split at h
    · simpa using h.symm
    · simp at h

theorem writeFileSync_ok (fs fs' : FS) (p : Path) (data : Str)
    (h : writeFileSync fs p data = Except.ok fs') : fs' = fsSet fs p (Node.file data) := by
  unfold writeFileSync at h
  split at h
  · simp at h
  · simpa using h.symm
  · split at h
    · simpa using h.symm
    · simp at h

theorem unlinkSync_ok (fs fs' : FS) (p : Path) (h : unlinkSync fs p = Except.ok fs') :
    fs' = fsRemove fs p := by
  unfold unlinkSync at h
  split at h
  · simpa using h.symm
  · simp at h
  · simp at h

theorem rmdirSync_ok (fs fs' : FS) (p : Path) (h : rmdirSync fs p = Except.ok fs') :
    fs' = fsRemove fs p ∧ children fs p = [] := by
  unfold rmdirSync at h
  split at h
  · split at h
    · next hc => exact ⟨by simpa using h.symm, hc⟩
    · simp at h
  · simp at h
  · simp at h

/-! ## Staging directory: `_createTmpFolder`, `_cleanupTmpFolder`, the `.catch` callback -/

theorem createTmpFolder_folderFiles (tmpDir dir : Path) (fs : FS) (h : ¬ dir <+: tmpDir) :
    folderFiles (_createTmpFolder tmpDir fs).1 dir = folderFiles fs dir := by
  have step : ∀ (fs0 : FS) (p : Path), outside dir p →
      ∀ fs1, (if !existsSync fs0 p then mkdirSync fs0 p else Except.ok fs0) = Except.ok fs1 →
        folderFiles fs1 dir = folderFiles fs0 dir := by
    intro fs0 p hp fs1 h1
    split at h1
    · rw [mkdirSync_ok fs0 fs1 p h1, folderFiles_fsSet fs0 p _ dir hp]
    · cases h1; rfl
  unfold _createTmpFolder
  cases h1 : (if !existsSync fs ["tmp".toList] then mkdirSync fs ["tmp".toList]
      else Except.ok fs) with
  | error e => rfl
  | ok fs1 =>
    have e1 := step fs _ (outside_tmp dir tmpDir h) fs1 h1
    simp only
    cases h2 : (if !existsSync fs1 tmpDir then mkdirSync fs1 tmpDir else Except.ok fs1) with
    | error e => exact e1
    | ok fs2 =>
      have e2 := step fs1 _ (outside_of_not_under dir tmpDir h) fs2 h2
      simp only
      rw [e2, e1]

/-- One `if (!fs.existsSync(p)) fs.mkdirSync(p)` step of `_createTmpFolder`
that does not throw keeps a clean staging directory clean, and when `p` is
the staging directory itself it is a directory afterwards. -/
theorem mkdirStep_clean (fs fs1 : FS) (p dir : Path) (hc : cleanStaging fs dir)
    (hp : childName dir p = none)
    (h : (if !existsSync fs p then mkdirSync fs p else Except.ok fs) = Except.ok fs1) :
    cleanStaging fs1 dir ∧ (p = dir → fsFind fs1 dir = some Node.dir) := by
  obtain ⟨hu, hne, hf, hd⟩ := hc
  split at h
  · rw [mkdirSync_ok fs fs1 p h]
    by_cases hpd : p = dir
    · have hs : fsFind (fsSet fs p Node.dir) dir = some Node.dir := by
        rw [← hpd]
        exact fsFind_fsSet_self fs p _ (hpd ▸ hne)
      exact ⟨⟨uniqueKeys_fsSet fs p _ hu, hne, onlyFiles_fsSet_other fs p dir _ hp hf,
        Or.inr hs⟩, fun _ => hs⟩
    · refine ⟨⟨uniqueKeys_fsSet fs p _ hu, hne, onlyFiles_fsSet_other fs p dir _ hp hf, ?_⟩,
        fun e => absurd e hpd⟩
      rw [fsFind_fsSet_ne fs p dir _ (Ne.symm hpd)]
      exact hd
  · next hex =>
    cases h
    refine ⟨⟨hu, hne, hf, hd⟩, ?_⟩
    intro hpd
    rw [hpd] at hex
    unfold existsSync at hex
    rcases hd with h0 | h0
    · rw [h0] at hex; simp at hex
    · exact h0

/-- After a `_createTmpFolder` that returns, a staging directory that was
clean is a directory holding only regular files. -/
theorem createTmpFolder_clean (tmpDir : Path) (fs : FS) (hc : cleanStaging fs tmpDir)
    (hok : (_createTmpFolder tmpDir fs).2 = Except.ok ()) :
    uniqueKeys (_createTmpFolder tmpDir fs).1 ∧
    fsFind (_createTmpFolder tmpDir fs).1 tmpDir = some Node.dir ∧
    onlyFiles (_createTmpFolder tmpDir fs).1 tmpDir := by
  unfold _createTmpFolder at hok ⊢
  cases h1 : (if !existsSync fs ["tmp".toList] then mkdirSync fs ["tmp".toList]
      else Except.ok fs) with
  | error e => rw [h1] at hok; simp at hok
  | ok fs1 =>
    rw [h1] at hok
    simp only at hok ⊢
    obtain ⟨hc1, -⟩ := mkdirStep_clean fs fs1 _ tmpDir hc (childName_tmp tmpDir hc.2.1) h1
    cases h2 : (if !existsSync fs1 tmpDir then mkdirSync fs1 tmpDir else Except.ok fs1) with
    | error e => rw [h2] at hok; simp at hok
    | ok fs2 =>
      simp only
      obtain ⟨hc2, hd2⟩ :=
        mkdirStep_clean fs1 fs2 _ tmpDir hc1 (childName_self tmpDir hc.2.1) h2
      exact ⟨hc2.1, hd2 rfl, hc2.2.2.1⟩

/-- When `mkdirSync` throws in `_createTmpFolder`, the staging directory does
not exist afterwards. -/
theorem createTmpFolder_error_missing (tmpDir : Path) (fs : FS) (e : Err)
    (h : (_createTmpFolder tmpDir fs).2 = Except.error e) :
    fsFind (_createTmpFolder tmpDir fs).1 tmpDir = none := by
  have hroot : ∀ fs0 : FS, mkdirSync fs0 ["tmp".toList] ≠ Except.error e ∨
      fsFind fs0 ["tmp".toList] ≠ none := by
    intro fs0
    cases hf : fsFind fs0 ["tmp".toList] with
    | some x => exact Or.inr (by simp)
    | none =>
      left
      unfold mkdirSync
      rw [hf]
      simp [fsFind_root]
  have hstep : ∀ (fs0 : FS) (p : Path) (e' : Err),
      (if !existsSync fs0 p then mkdirSync fs0 p else Except.ok fs0) = Except.error e' →
        fsFind fs0 p = none := by
    intro fs0 p e' h0
    split at h0
    · next hex =>
      unfold existsSync at hex
      cases hf : fsFind fs0 p with
      | none => rfl
      | some x => rw [hf] at hex; simp at hex
    · simp at h0
  unfold _createTmpFolder at h ⊢
  cases h1 : (if !existsSync fs ["tmp".toList] then mkdirSync fs ["tmp".toList]
      else Except.ok fs) with
  | error e1 =>
    exfalso
    have hnone := hstep fs _ e1 h1
    have hex : existsSync fs ["tmp".toList] = false := by
      unfold existsSync; rw [hnone]; rfl
    rw [hex] at h1
    simp only [Bool.not_false, if_true] at h1
    unfold mkdirSync at h1
    rw [hnone] at h1
    simp [fsFind_root] at h1
  | ok fs1 =>
    rw [h1] at h
    simp only at h ⊢
    cases h2 : (if !existsSync fs1 tmpDir then mkdirSync fs1 tmpDir else Except.ok fs1) with
    | error e2 =>
      simp only
      exact hstep fs1 tmpDir e2 h2
    | ok fs2 => rw [h2] at h; simp at h

theorem unlinkEach_folderFiles (tmpDir dir : Path) (h : ¬ dir <+: tmpDir) :
    ∀ (files : List Str) (fs : FS),
      folderFiles (unlinkEach tmpDir files fs).1 dir = folderFiles fs dir := by
  intro files
  induction files with
  | nil => intro fs; rfl
  | cons file rest ih =>
    intro fs
    unfold unlinkEach
    cases h1 : unlinkSync fs (tmpDir ++ [file]) with
    | error e => rfl
    | ok fs1 =>
      simp only
      rw [ih, unlinkSync_ok fs fs1 _ h1, folderFiles_fsRemove _ _ dir (outside_child dir _ _ h)]

theorem unlinkEach_ok (dir : Path) :
    ∀ (names : List Str) (fs : FS), names.Nodup →
      (∀ n ∈ names, ∃ data, fsFind fs (dir ++ [n]) = some (Node.file data)) →
      (unlinkEach dir names fs).2 = Except.ok () ∧
      (∀ q, (∀ n ∈ names, q ≠ dir ++ [n]) →
        fsFind (unlinkEach dir names fs).1 q = fsFind fs q) ∧
      (∀ e ∈ (unlinkEach dir names fs).1, e ∈ fs ∧ ∀ n ∈ names, e.1 ≠ dir ++ [n]) := by
  intro names
  induction names with
  | nil =>
    intro fs _ _
    exact ⟨rfl, fun _ _ => rfl, fun e he => ⟨he, fun _ hn => by simp at hn⟩⟩
  | cons n rest ih =>
    intro fs hnd hfiles
    rw [List.nodup_cons] at hnd
    obtain ⟨data, hd⟩ := hfiles n (List.mem_cons_self _ _)
    have hu : unlinkSync fs (dir ++ [n]) = Except.ok (fsRemove fs (dir ++ [n])) := by
      unfold unlinkSync
      rw [hd]
    unfold unlinkEach
    rw [hu]
    simp only
    have hne : ∀ m ∈ rest, dir ++ [n] ≠ dir ++ [m] := by
      intro m hm
      apply concat_ne_concat
      intro e
      exact hnd.1 (e ▸ hm)
    obtain ⟨a, b, c⟩ := ih (fsRemove fs (dir ++ [n])) hnd.2 (by
      intro m hm
      obtain ⟨d2, h2⟩ := hfiles m (List.mem_cons_of_mem _ hm)
      exact ⟨d2, by rw [fsFind_fsRemove_ne _ _ (hne m hm), h2]⟩)
    refine ⟨a, ?_, ?_⟩
    · intro q hq
      rw [b q (fun m hm => hq m (List.mem_cons_of_mem _ hm)),
        fsFind_fsRemove_ne _ _ (fun e => hq n (List.mem_cons_self _ _) e.symm)]
    · intro e he
      obtain ⟨h1, h2⟩ := c e he
      unfold fsRemove at h1
      rw [List.mem_filter] at h1
      refine ⟨h1.1, ?_⟩
      intro m hm
      rcases List.mem_cons.mp hm with h | h
      · rw [h]; simpa using h1.2
      · exact h2 m h

/-- Cleanup counts one invocation, and changes nothing else but the file
system, where it leaves every folder that does not hold the staging
directory as it was. -/
theorem cleanup_frame (tmpDir : Path) (w : World) :
    (_cleanupTmpFolder tmpDir w).1.cleanupCalls = w.cleanupCalls + 1 ∧
    (_cleanupTmpFolder tmpDir w).1.pushCalls = w.pushCalls ∧
    (_cleanupTmpFolder tmpDir w).1.pullCalls = w.pullCalls ∧
    (_cleanupTmpFolder tmpDir w).1.copies = w.copies ∧
    (_cleanupTmpFolder tmpDir w).1.log = w.log ∧
    ∀ dir, ¬ dir <+: tmpDir →
      folderFiles (_cleanupTmpFolder tmpDir w).1.fs dir = folderFiles w.fs dir := by
  unfold _cleanupTmpFolder
  simp only
  cases h1 : readdirSync w.fs tmpDir with
  | error e => simp
  | ok files =>
    simp only
    have hu := unlinkEach_folderFiles tmpDir
    cases h2 : unlinkEach tmpDir files w.fs with
    | mk fs1 r =>
      have hfs1 : ∀ dir, ¬ dir <+: tmpDir → folderFiles fs1 dir = folderFiles w.fs dir := by
        intro dir hd
        have := hu dir hd files w.fs
        rw [h2] at this
        exact this
      cases r with
      | error e => simpa using hfs1
      | ok u =>
        simp only
        cases h3 : rmdirSync fs1 tmpDir with
        | error e => simpa using hfs1
        | ok fs2 =>
          simp only [true_and]
          intro dir hd
          rw [(rmdirSync_ok fs1 fs2 tmpDir h3).1,
            folderFiles_fsRemove _ _ dir (outside_of_not_under dir tmpDir hd), hfs1 dir hd]

/-- After a cleanup that returns, the staging directory holds no entry. -/
theorem cleanup_ok_empty (tmpDir : Path) (w : World)
    (h : (_cleanupTmpFolder tmpDir w).2 = Except.ok ()) (name : Str) :
    fsFind (_cleanupTmpFolder tmpDir w).1.fs (tmpDir ++ [name]) = none := by
  unfold _cleanupTmpFolder at h ⊢
  simp only at h ⊢
  cases h1 : readdirSync w.fs tmpDir with
  | error e => rw [h1] at h; simp at h
  | ok files =>
    rw [h1] at h
    simp only at h ⊢
    cases h2 : unlinkEach tmpDir files w.fs with
    | mk fs1 r =>
      rw [h2] at h
      cases r with
      | error e => simp at h
      | ok u =>
        simp only at h ⊢
        cases h3 : rmdirSync fs1 tmpDir with
        | error e => rw [h3] at h; simp at h
        | ok fs2 =>
          simp only
          obtain ⟨e1, e2⟩ := rmdirSync_ok fs1 fs2 tmpDir h3
          rw [e1]
          exact fsFind_child_of_children_nil _ _ _ (children_fsRemove_nil fs1 tmpDir tmpDir e2)

/-- After a cleanup that returns, the staging directory does not exist. -/
theorem cleanup_ok_removed (tmpDir : Path) (w : World) (hne : tmpDir ≠ [])
    (h : (_cleanupTmpFolder tmpDir w).2 = Except.ok ()) :
    fsFind (_cleanupTmpFolder tmpDir w).1.fs tmpDir = none := by
  unfold _cleanupTmpFolder at h ⊢
  simp only at h ⊢
  cases h1 : readdirSync w.fs tmpDir with
  | error e => rw [h1] at h; simp at h
  | ok files =>
    rw [h1] at h
    simp only at h ⊢
    cases h2 : unlinkEach tmpDir files w.fs with
    | mk fs1 r =>
      rw [h2] at h
      cases r with
      | error e => simp at h
      | ok u =>
        simp only at h ⊢
        cases h3 : rmdirSync fs1 tmpDir with
        | error e => rw [h3] at h; simp at h
        | ok fs2 =>
          simp only
          rw [(rmdirSync_ok fs1 fs2 tmpDir h3).1]
          exact fsFind_fsRemove_self tmpDir hne fs1

/-- Cleanup returns when the staging directory is a directory whose entries
are all regular files. -/
theorem cleanup_ok_of_onlyFiles (tmpDir : Path) (w : World)
    (hu : uniqueKeys w.fs) (hd : fsFind w.fs tmpDir = some Node.dir)
    (hf : onlyFiles w.fs tmpDir) :
    (_cleanupTmpFolder tmpDir w).2 = Except.ok () := by
  have hmem : ∀ n, n ∈ sortNames (children w.fs tmpDir) ↔ n ∈ children w.fs tmpDir :=
    fun n => mem_sortNames n (children w.fs tmpDir)
  have hnames : ∀ n ∈ sortNames (children w.fs tmpDir),
      ∃ data, fsFind w.fs (tmpDir ++ [n]) = some (Node.file data) := by
    intro n hn
    obtain ⟨node, hm⟩ := (mem_children w.fs tmpDir n).mp ((hmem n).mp hn)
    have hnode := hf _ hm (by rw [childName_concat]; simp)
    cases node with
    | dir => exact absurd rfl hnode
    | file data => exact ⟨data, fsFind_of_mem _ _ (by simp) w.fs hu hm⟩
  obtain ⟨a, b, c⟩ := unlinkEach_ok tmpDir (sortNames (children w.fs tmpDir)) w.fs
    (sortNames_nodup _ (children_nodup tmpDir w.fs hu)) hnames
  unfold _cleanupTmpFolder
  simp only
  have hr : readdirSync w.fs tmpDir = Except.ok (sortNames (children w.fs tmpDir)) := by
    unfold readdirSync
    rw [hd]
  rw [hr]
  simp only
  cases hue : unlinkEach tmpDir (sortNames (children w.fs tmpDir)) w.fs with
  | mk fs1 r =>
    rw [hue] at a b c
    simp only at a b c
    subst a
    simp only
    have hd1 : fsFind fs1 tmpDir = some Node.dir := by
      rw [b tmpDir (fun n _ => self_ne_concat tmpDir n), hd]
    have hc1 : children fs1 tmpDir = [] := by
      unfold children
      rw [List.filterMap_eq_nil_iff]
      intro e he
      cases hcn : childName tmpDir e.1 with
      | none => rfl
      | some n =>
        obtain ⟨h1, h2⟩ := c e he
        have he1 := childName_eq_some tmpDir e.1 n hcn
        have hn : n ∈ children w.fs tmpDir :=
          (mem_children w.fs tmpDir n).mpr ⟨e.2, by rw [← he1]; exact h1⟩
        exact absurd he1 (h2 n ((hmem n).mpr hn))
    have hrm : rmdirSync fs1 tmpDir = Except.ok (fsRemove fs1 tmpDir) := by
      unfold rmdirSync
      rw [hd1]
      simp only [hc1, if_true]
    rw [hrm]

/-- The `.catch` callback: one cleanup call; the promise is rejected with the
error it was given when cleanup returns, and stays pending when cleanup
throws; it is never resolved. -/
theorem catchHandler_spec (opts : Options) (e : Err) (w : World) :
    (catchHandler opts e w).1.cleanupCalls = w.cleanupCalls + 1 ∧
    (catchHandler opts e w).1.pushCalls = w.pushCalls ∧
    (catchHandler opts e w).1.copies = w.copies ∧
    (∀ dir, ¬ dir <+: opts.tmpDir →
      folderFiles (catchHandler opts e w).1.fs dir = folderFiles w.fs dir) ∧
    ((catchHandler opts e w).2 = Settled.rejected e ∨
      (catchHandler opts e w).2 = Settled.pending) ∧
    ((catchHandler opts e w).2 = Settled.rejected e →
      ∀ name, fsFind (catchHandler opts e w).1.fs (opts.tmpDir ++ [name]) = none) := by
  have hf := cleanup_frame opts.tmpDir
    { w with log := w.log ++ [LogLine.errorContext, LogLine.errorCause e] }
  have hg := cleanup_ok_empty opts.tmpDir
    { w with log := w.log ++ [LogLine.errorContext, LogLine.errorCause e] }
  unfold catchHandler
  cases hc : _cleanupTmpFolder opts.tmpDir
      { w with log := w.log ++ [LogLine.errorContext, LogLine.errorCause e] } with
  | mk w1 r =>
    rw [hc] at hf hg
    obtain ⟨a, b, _, c, _, d⟩ := hf
    cases r with
    | ok u => exact ⟨a, b, c, d, Or.inl rfl, fun _ => hg rfl⟩
    | error e' => exact ⟨a, b, c, d, Or.inr rfl, fun h => by simp at h⟩

/-- The `.catch` callback leaves the promise pending when the staging
directory does not exist. -/
theorem catchHandler_pending_of_missing (opts : Options) (e : Err) (w : World)
    (h : fsFind w.fs opts.tmpDir = none) :
    (catchHandler opts e w).2 = Settled.pending := by
  unfold catchHandler _cleanupTmpFolder readdirSync
  simp only [h]

/-! ## The retry controller -/

namespace Push

theorem tryPush_ok (remote : Nat → Except Err Payload) (maxCount : Int) (w : World)
    (data : Payload) (h : remote w.pushCalls = Except.ok data) :
    _tryPush remote maxCount w =
      ({ w with _tryPushCount := w._tryPushCount + 1, pushCalls := w.pushCalls + 1 },
        Except.ok data) := by
  rw [_tryPush]
  split
  · next w2 d heq =>
    simp only [push, h, Prod.mk.injEq, Except.ok.injEq] at heq
    obtain ⟨rfl, rfl⟩ := heq
    rfl
  · next w2 err heq => simp [push, h] at heq

theorem tryPush_last (remote : Nat → Except Err Payload) (maxCount : Int) (w : World)
    (e : Err) (h : remote w.pushCalls = Except.error e)
    (hc : maxCount ≤ w._tryPushCount + 1) :
    _tryPush remote maxCount w =
      ({ w with _tryPushCount := w._tryPushCount + 1, pushCalls := w.pushCalls + 1 },
        Except.error e) := by
  rw [_tryPush]
  split
  · next w2 d heq => simp [push, h] at heq
  · next w2 err heq =>
    simp only [push, h, Prod.mk.injEq, Except.error.injEq] at heq
    obtain ⟨rfl, rfl⟩ := heq
    simp [hc]

theorem tryPush_retry (remote : Nat → Except Err Payload) (maxCount : Int) (w : World)
    (e : Err) (h : remote w.pushCalls = Except.error e)
    (hc : w._tryPushCount + 1 < maxCount) :
    _tryPush remote maxCount w =
      _tryPush remote maxCount
        { w with _tryPushCount := w._tryPushCount + 1, pushCalls := w.pushCalls + 1,
                 log := w.log ++ [LogLine.retryNotice (w._tryPushCount + 1)] } := by
  rw [_tryPush]
  split
  · next w2 d heq => simp [push, h] at heq
  · next w2 err heq =>
    simp only [push, h, Prod.mk.injEq, Except.error.injEq] at heq
    obtain ⟨rfl, rfl⟩ := heq
    simp [not_le.mpr hc]

/-- The retry controller touches only the counter, the call count and the log. -/
theorem tryPush_frame (remote : Nat → Except Err Payload) (maxCount : Int) :
    ∀ (k : Nat) (w : World), (maxCount - (w._tryPushCount + 1)).toNat = k →
      (Push._tryPush remote maxCount w).1.fs = w.fs ∧
      (Push._tryPush remote maxCount w).1.cleanupCalls = w.cleanupCalls ∧
      (Push._tryPush remote maxCount w).1.copies = w.copies ∧
      (Push._tryPush remote maxCount w).1.pullCalls = w.pullCalls := by
  intro k
  induction k with
  | zero =>
    intro w hk
    cases h : remote w.pushCalls with
    | ok data => rw [tryPush_ok remote maxCount w data h]; simp
    | error e => rw [tryPush_last remote maxCount w e h (by omega)]; simp
  | succ k ih =>
    intro w hk
    cases h : remote w.pushCalls with
    | ok data => rw [tryPush_ok remote maxCount w data h]; simp
    | error e =>
      rw [tryPush_retry remote maxCount w e h (by omega)]
      exact ih _ (by simp only; omega)

theorem tryPush_all_fail (remote : Nat → Except Err Payload) (maxCount : Int) :
    ∀ (k : Nat) (cause : Nat → Err) (w : World),
      (maxCount - (w._tryPushCount + 1)).toNat = k →
      (∀ i, i ≤ k → remote (w.pushCalls + i) = Except.error (cause i)) →
      (Push._tryPush remote maxCount w).2 = Except.error (cause k) ∧
      (Push._tryPush remote maxCount w).1.pushCalls = w.pushCalls + (k + 1) ∧
      (Push._tryPush remote maxCount w).1.log =
        w.log ++ (List.range k).map
          (fun (i : Nat) => LogLine.retryNotice (w._tryPushCount + 1 + (i : Int))) := by
  intro k
  induction k with
  | zero =>
    intro cause w hk hf
    have h0 : remote w.pushCalls = Except.error (cause 0) := by simpa using hf 0 (by omega)
    rw [tryPush_last remote maxCount w _ h0 (by omega)]
    simp
  | succ k ih =>
    intro cause w hk hf
    have h0 : remote w.pushCalls = Except.error (cause 0) := by simpa using hf 0 (by omega)
    rw [tryPush_retry remote maxCount w _ h0 (by omega)]
    obtain ⟨a, b, c⟩ := ih (fun i => cause (i + 1))
      { w with _tryPushCount := w._tryPushCount + 1, pushCalls := w.pushCalls + 1,
               log := w.log ++ [LogLine.retryNotice (w._tryPushCount + 1)] }
      (by simp only; omega)
      (fun i hi => by
        have := hf (i + 1) (by omega)
        simpa [Nat.add_assoc, Nat.add_comm 1 i] using this)
    refine ⟨a, ?_, ?_⟩
    · rw [b]; simp only; omega
    · rw [c]
      rw [List.range_succ_eq_map]
      simp [List.map_map, Function.comp_def, add_assoc, add_comm (1 : Int)]
      intro i _
      omega

theorem tryPush_first_success (remote : Nat → Except Err Payload) (maxCount : Int)
    (data : Payload) :
    ∀ (j : Nat) (w : World), (j = 0 ∨ w._tryPushCount + j < maxCount) →
      (∀ i, i < j → ∃ e, remote (w.pushCalls + i) = Except.error e) →
      remote (w.pushCalls + j) = Except.ok data →
      (Push._tryPush remote maxCount w).2 = Except.ok data ∧
      (Push._tryPush remote maxCount w).1.pushCalls = w.pushCalls + (j + 1) ∧
      (Push._tryPush remote maxCount w).1.log =
        w.log ++ (List.range j).map
          (fun (i : Nat) => LogLine.retryNotice (w._tryPushCount + 1 + (i : Int))) := by
  intro j
  induction j with
  | zero =>
    intro w _ _ hs
    rw [tryPush_ok remote maxCount w data (by simpa using hs)]
    simp
  | succ j ih =>
    intro w hc hf hs
    obtain ⟨e, h0⟩ := hf 0 (by omega)
    rw [tryPush_retry remote maxCount w e (by simpa using h0)
      (by rcases hc with h | h
          · omega
          · push_cast at h; omega)]
    obtain ⟨a, b, c⟩ := ih
      { w with _tryPushCount := w._tryPushCount + 1, pushCalls := w.pushCalls + 1,
               log := w.log ++ [LogLine.retryNotice (w._tryPushCount + 1)] }
      (by rcases hc with h | h
          · omega
          · right; push_cast at h; simp only; omega)
      (fun i hi => by
        obtain ⟨e, he⟩ := hf (i + 1) (by omega)
        exact ⟨e, by simpa [Nat.add_assoc, Nat.add_comm 1 i] using he⟩)
      (by simpa [Nat.add_assoc, Nat.add_comm 1 j] using hs)
    refine ⟨a, ?_, ?_⟩
    · rw [b]; simp only; omega
    · rw [c]
      rw [List.range_succ_eq_map]
      simp [List.map_map, Function.comp_def, add_assoc, add_comm (1 : Int)]
      intro i _
      omega

/-- A push that the retry controller resolves is resolved with the terminal
event of the last push call made. -/
theorem tryPush_ok_last (remote : Nat → Except Err Payload) (maxCount : Int) (data : Payload) :
    ∀ (k : Nat) (w : World), (maxCount - (w._tryPushCount + 1)).toNat = k →
      (_tryPush remote maxCount w).2 = Except.ok data →
      w.pushCalls < (_tryPush remote maxCount w).1.pushCalls ∧
      remote ((_tryPush remote maxCount w).1.pushCalls - 1) = Except.ok data := by
  intro k
  induction k with
  | zero =>
    intro w hk
    cases h : remote w.pushCalls with
    | ok d =>
      rw [tryPush_ok remote maxCount w d h]
      intro hd
      simp only [Except.ok.injEq] at hd
      subst hd
      simpa using h
    | error e =>
      rw [tryPush_last remote maxCount w e h (by omega)]
      intro hd
      simp at hd
  | succ k ih =>
    intro w hk
    cases h : remote w.pushCalls with
    | ok d =>
      rw [tryPush_ok remote maxCount w d h]
      intro hd
      simp only [Except.ok.injEq] at hd
      subst hd
      simpa using h
    | error e =>
      rw [tryPush_retry remote maxCount w e h (by omega)]
      intro hd
      obtain ⟨a, b⟩ := ih
        { w with _tryPushCount := w._tryPushCount + 1, pushCalls := w.pushCalls + 1,
                 log := w.log ++ [LogLine.retryNotice (w._tryPushCount + 1)] }
        (by simp only; omega) hd
      exact ⟨by simp only at a; omega, b⟩

end Push

/-! ## Push staging -/

namespace Push

theorem newFileName_truthy (opts : Options) (file name : Str)
    (h : newFileName opts file = some name) : truthy (some name) = true := by
  unfold newFileName at h
  split at h
  · next hpot =>
    have hne := endsWith_ne_nil file _ (by decide) hpot
    simp only [Option.some.injEq] at h
    subst h
    cases file with
    | nil => exact absurd rfl hne
    | cons c t => rfl
  · split at h
    · simp only [Option.some.injEq] at h
      subst h
      simp [truthy]
    · simp at h

theorem newFileName_pot (opts : Options) (file : Str)
    (h : endsWith file ".pot".toList = true) : newFileName opts file = some file := by
  unfold newFileName
  rw [if_pos h]

theorem newFileName_po (opts : Options) (file : Str)
    (h : endsWith file ".po".toList = true) :
    newFileName opts file = some (fileName opts (splitHead file ".po".toList) ++ ".po".toList) := by
  unfold newFileName
  rw [if_neg (by rw [endsWith_po_not_pot file h]; decide), if_pos h]

theorem newFileName_other (opts : Options) (file : Str)
    (h1 : ¬ endsWith file ".pot".toList = true) (h2 : ¬ endsWith file ".po".toList = true) :
    newFileName opts file = none := by
  unfold newFileName
  rw [if_neg h1, if_neg h2]

theorem copyFor_eq_some_iff (opts : Options) (file : Str) (src dst : Path) :
    copyFor opts file = some (src, dst) ↔
      file ∉ opts.excludeFiles ∧ src = opts.translationFolder ++ [file] ∧
        ((endsWith file ".pot".toList = true ∧ dst = opts.tmpDir ++ [file]) ∨
         (endsWith file ".po".toList = true ∧
           dst = opts.tmpDir ++ [fileName opts (splitHead file ".po".toList) ++ ".po".toList])) := by
  unfold copyFor
  by_cases hex : file ∈ opts.excludeFiles
  · rw [if_pos hex]
    constructor
    · intro h; exact absurd h (by simp)
    · intro h; exact absurd hex h.1
  · rw [if_neg hex]
    by_cases hpot : endsWith file ".pot".toList = true
    · have hn := newFileName_pot opts file hpot
      have ht := newFileName_truthy opts file _ hn
      rw [hn]
      simp only [ht, if_true, Option.some.injEq, Prod.mk.injEq]
      constructor
      · rintro ⟨rfl, rfl⟩
        exact ⟨hex, rfl, Or.inl ⟨hpot, rfl⟩⟩
      · rintro ⟨-, rfl, h | h⟩
        · exact ⟨rfl, h.2.symm⟩
        · rw [endsWith_po_not_pot file h.1] at hpot
          exact absurd hpot (by decide)
    · by_cases hpo : endsWith file ".po".toList = true
      · have hn := newFileName_po opts file hpo
        have ht := newFileName_truthy opts file _ hn
        rw [hn]
        simp only [ht, if_true, Option.some.injEq, Prod.mk.injEq]
        constructor
        · rintro ⟨rfl, rfl⟩
          exact ⟨hex, rfl, Or.inr ⟨hpo, rfl⟩⟩
        · rintro ⟨-, rfl, h | h⟩
          · exact absurd h.1 hpot
          · exact ⟨rfl, h.2.symm⟩
      · rw [newFileName_other opts file hpot hpo]
        constructor
        · intro h; exact absurd h (by simp)
        · rintro ⟨-, -, h | h⟩
          · exact absurd h.1 hpot
          · exact absurd h.1 hpo

theorem copyEach_copies (opts : Options) :
    ∀ (files : List Str) (w w' : World), copyEach opts files w = (w', Except.ok ()) →
      w'.copies = w.copies ++ files.filterMap (copyFor opts) := by
  intro files
  induction files with
  | nil =>
    intro w w' h
    simp only [copyEach, Prod.mk.injEq, and_true] at h
    subst h
    simp
  | cons file rest ih =>
    intro w w' h
    unfold copyEach at h
    by_cases hex : file ∈ opts.excludeFiles
    · rw [if_pos hex] at h
      rw [ih w w' h]
      simp [copyFor, hex]
    · rw [if_neg hex] at h
      cases hn : newFileName opts file with
      | none =>
        rw [hn] at h
        rw [ih w w' h]
        simp [copyFor, hex, hn]
      | some name =>
        rw [hn] at h
        have ht := newFileName_truthy opts file name hn
        simp only [ht, if_true] at h
        cases hcp : copyFileSync w.fs (opts.translationFolder ++ [file]) (opts.tmpDir ++ [name]) with
        | error e => rw [hcp] at h; simp at h
        | ok fs1 =>
          rw [hcp] at h
          rw [ih _ w' h]
          simp [copyFor, hex, hn, ht]

/-- The copies made by the staging loop are a prefix of the copies of
`copyFor` over the listing, and all of them when the loop completes. -/
theorem copyEach_copies_prefix (opts : Options) :
    ∀ (files : List Str) (w : World),
      ∃ staged, (copyEach opts files w).1.copies = w.copies ++ staged ∧
        staged <+: files.filterMap (copyFor opts) ∧
        ((copyEach opts files w).2 = Except.ok () →
          staged = files.filterMap (copyFor opts)) := by
  intro files
  induction files with
  | nil =>
    intro w
    exact ⟨[], by simp [copyEach], by simp, fun _ => by simp⟩
  | cons file rest ih =>
    intro w
    unfold copyEach
    by_cases hex : file ∈ opts.excludeFiles
    · rw [if_pos hex]
      have hcf : copyFor opts file = none := by simp [copyFor, hex]
      rw [List.filterMap_cons, hcf]
      exact ih w
    · rw [if_neg hex]
      cases hn : newFileName opts file with
      | none =>
        have hcf : copyFor opts file = none := by simp [copyFor, hex, hn]
        rw [List.filterMap_cons, hcf]
        exact ih w
      | some name =>
        have ht := newFileName_truthy opts file name hn
        have hcf : copyFor opts file
            = some (opts.translationFolder ++ [file], opts.tmpDir ++ [name]) := by
          simp [copyFor, hex, hn, ht]
        rw [List.filterMap_cons, hcf]
        simp only [ht, if_true]
        cases hcp : copyFileSync w.fs (opts.translationFolder ++ [file])
            (opts.tmpDir ++ [name]) with
        | error e =>
          exact ⟨[], by simp, List.nil_prefix, fun h => by simp at h⟩
        | ok fs1 =>
          simp only
          obtain ⟨staged, h1, h2, h3⟩ := ih
            { w with fs := fs1,
                     copies := w.copies ++
                       [(opts.translationFolder ++ [file], opts.tmpDir ++ [name])] }
          refine ⟨(opts.translationFolder ++ [file], opts.tmpDir ++ [name]) :: staged,
            ?_, ?_, ?_⟩
          · rw [h1]; simp
          · exact (List.prefix_cons_inj _).mpr h2
          · intro h; rw [h3 h]

theorem copyEach_calls (opts : Options) :
    ∀ (files : List Str) (w : World),
      (copyEach opts files w).1.pushCalls = w.pushCalls ∧
      (copyEach opts files w).1.cleanupCalls = w.cleanupCalls := by
  intro files
  induction files with
  | nil => intro w; exact ⟨rfl, rfl⟩
  | cons file rest ih =>
    intro w
    unfold copyEach
    split
    · exact ih w
    · split
      · split
        · split
          · next fs1 _ => exact ih _
          · exact ⟨rfl, rfl⟩
        · exact ih w
      · exact ih w

/-- A staging run that completes has read the listing of the translation
folder and made the copy of `copyFor` for each of its files, in order. -/
theorem prepareFolder_copies (opts : Options) (w w' : World)
    (hok : _prepareFolder opts w = (w', Except.ok ())) :
    ∃ files,
      readdirSync (_createTmpFolder opts.tmpDir w.fs).1 opts.translationFolder
        = Except.ok files ∧
      w'.copies = w.copies ++ files.filterMap (copyFor opts) := by
  unfold _prepareFolder at hok
  cases hc : _createTmpFolder opts.tmpDir w.fs with
  | mk fs1 r =>
    rw [hc] at hok
    cases r with
    | error e => simp at hok
    | ok u =>
      simp only at hok
      cases hd : readdirSync fs1 opts.translationFolder with
      | error e => rw [hd] at hok; simp at hok
      | ok files =>
        rw [hd] at hok
        simp only at hok
        exact ⟨files, rfl, by simpa using copyEach_copies opts files _ w' hok⟩

/-- Staging makes no push call and no cleanup call. -/
theorem prepareFolder_calls (opts : Options) (w : World) :
    (_prepareFolder opts w).1.pushCalls = w.pushCalls ∧
    (_prepareFolder opts w).1.cleanupCalls = w.cleanupCalls := by
  unfold _prepareFolder
  split
  · exact ⟨rfl, rfl⟩
  · split
    · exact ⟨rfl, rfl⟩
    · exact copyEach_calls opts _ _

end Push

/-! ## Pull transfer and placement -/

theorem onDataPull_folderFiles (opts : Options) (dir : Path) (fs : FS) (item : Item)
    (h : ¬ dir <+: opts.tmpDir) :
    folderFiles (onDataPull opts fs item) dir = folderFiles fs dir := by
  unfold onDataPull
  simp only
  split
  · next fs1 h1 =>
    rw [writeFileSync_ok _ _ _ _ h1, folderFiles_fsSet _ _ _ dir (outside_child dir _ _ h)]
  · rfl

theorem foldl_onDataPull_folderFiles (opts : Options) (dir : Path)
    (h : ¬ dir <+: opts.tmpDir) :
    ∀ (items : List Item) (fs : FS),
      folderFiles (items.foldl (onDataPull opts) fs) dir = folderFiles fs dir := by
  intro items
  induction items with
  | nil => intro fs; rfl
  | cons item rest ih =>
    intro fs
    rw [List.foldl_cons, ih, onDataPull_folderFiles opts dir fs item h]

theorem foldl_onDataPull_clean (opts : Options) :
    ∀ (items : List Item) (fs : FS),
      uniqueKeys fs → fsFind fs opts.tmpDir = some Node.dir → onlyFiles fs opts.tmpDir →
      uniqueKeys (items.foldl (onDataPull opts) fs) ∧
      fsFind (items.foldl (onDataPull opts) fs) opts.tmpDir = some Node.dir ∧
      onlyFiles (items.foldl (onDataPull opts) fs) opts.tmpDir := by
  intro items
  induction items with
  | nil => intro fs a b c; exact ⟨a, b, c⟩
  | cons item rest ih =>
    intro fs a b c
    rw [List.foldl_cons]
    apply ih
    all_goals
      unfold onDataPull
      simp only
      split
      · next fs1 h1 =>
        rw [writeFileSync_ok _ _ _ _ h1]
        first
          | exact uniqueKeys_fsSet _ _ _ a
          | exact onlyFiles_fsSet_file _ _ _ _ c
          | (rw [fsFind_fsSet_ne _ _ _ _ (self_ne_concat _ _)]; exact b)
      · assumption

namespace Pull

theorem placeEach_calls (opts : Options) :
    ∀ (files : List Str) (w : World),
      (copyEach opts files w).1.cleanupCalls = w.cleanupCalls := by
  intro files
  induction files with
  | nil => intro w; rfl
  | cons file rest ih =>
    intro w
    unfold copyEach
    split
    · split
      · split
        · next fs1 _ => exact ih _
        · rfl
      · exact ih w
    · exact ih w

/-- A pull whose staging directory could be prepared and whose transfer ends
with `fail` goes from the transfer to the `.catch` callback. -/
theorem start_of_failed_transfer (script : PullScript) (opts : Options) (w : World) (e : Err)
    (hprep : (_prepareFolder opts w).2 = Except.ok ())
    (hfail : script.terminal = Except.error e) :
    start script opts w =
      catchHandler opts e
        { w with fs := script.items.foldl (onDataPull opts)
                         (_createTmpFolder opts.tmpDir w.fs).1,
                 pullCalls := w.pullCalls + 1 } := by
  unfold start
  unfold _prepareFolder at hprep ⊢
  cases hc : _createTmpFolder opts.tmpDir w.fs with
  | mk fs1 r =>
    rw [hc] at hprep
    cases r with
    | error e' => simp at hprep
    | ok u => simp only [pull, hfail]

end Pull

/-! ## The promise chains of `start` -/

namespace Pull

/-- In every pull sync cleanup is invoked once, or twice; twice only when the
promise is not resolved. -/
theorem pull_start_cleanupCalls (script : PullScript) (opts : Options) (w : World) :
    (start script opts w).1.cleanupCalls = w.cleanupCalls + 1 ∨
    ((start script opts w).1.cleanupCalls = w.cleanupCalls + 2 ∧
      ∀ v, (start script opts w).2 ≠ Settled.resolved v) := by
  have hcatch : ∀ (e : Err) (w0 : World) (v : Option Payload),
      (catchHandler opts e w0).2 ≠ Settled.resolved v := by
    intro e w0 v h
    rcases (catchHandler_spec opts e w0).2.2.2.2.1 with h1 | h1 <;> rw [h1] at h <;> simp at h
  have hcc : ∀ (e : Err) (w0 : World),
      (catchHandler opts e w0).1.cleanupCalls = w0.cleanupCalls + 1 :=
    fun e w0 => (catchHandler_spec opts e w0).1
  unfold start _prepareFolder
  cases hc : _createTmpFolder opts.tmpDir w.fs with
  | mk fs1 r =>
    cases r with
    | error e => left; simp only; rw [hcc]
    | ok u =>
      simp only [pull]
      cases ht : script.terminal with
      | error e => left; simp only; rw [hcc]
      | ok data =>
        simp only
        unfold _moveToOutput
        simp only
        cases hd : readdirSync (script.items.foldl (onDataPull opts) fs1) opts.tmpDir with
        | error e => left; simp only; rw [hcc]
        | ok files =>
          simp only
          have hce := placeEach_calls opts files
            { w with fs := script.items.foldl (onDataPull opts) fs1,
                     pullCalls := w.pullCalls + 1 }
          cases hcp : copyEach opts files
              { w with fs := script.items.foldl (onDataPull opts) fs1,
                       pullCalls := w.pullCalls + 1 } with
          | mk w3 r3 =>
            rw [hcp] at hce
            simp only at hce
            cases r3 with
            | error e => left; simp only; rw [hcc, hce]
            | ok u3 =>
              simp only
              have hfr := (cleanup_frame opts.tmpDir
                { w3 with log := w3.log ++ [LogLine.success] }).1
              cases hcl : _cleanupTmpFolder opts.tmpDir
                  { w3 with log := w3.log ++ [LogLine.success] } with
              | mk w4 r4 =>
                rw [hcl] at hfr
                simp only at hfr
                cases r4 with
                | ok u4 => left; simp only; rw [hfr, hce]
                | error e =>
                  right
                  simp only
                  exact ⟨by rw [hcc, hfr, hce], fun v => hcatch e w4 v⟩

end Pull

namespace Push

/-- In every push sync cleanup is invoked once, or twice; twice only when the
promise is not resolved. -/
theorem push_start_cleanupCalls (remote : Nat → Except Err Payload) (opts : Options) (w : World) :
    (start remote opts w).1.cleanupCalls = w.cleanupCalls + 1 ∨
    ((start remote opts w).1.cleanupCalls = w.cleanupCalls + 2 ∧
      ∀ v, (start remote opts w).2 ≠ Settled.resolved v) := by
  have hcatch : ∀ (e : Err) (w0 : World) (v : Option Payload),
      (catchHandler opts e w0).2 ≠ Settled.resolved v := by
    intro e w0 v h
    rcases (catchHandler_spec opts e w0).2.2.2.2.1 with h1 | h1 <;> rw [h1] at h <;> simp at h
  have hcc : ∀ (e : Err) (w0 : World),
      (catchHandler opts e w0).1.cleanupCalls = w0.cleanupCalls + 1 :=
    fun e w0 => (catchHandler_spec opts e w0).1
  have hp := (prepareFolder_calls opts w).2
  unfold start
  cases hpf : _prepareFolder opts w with
  | mk w1 r =>
    rw [hpf] at hp
    simp only at hp
    cases r with
    | error e => left; simp only; rw [hcc, hp]
    | ok u =>
      simp only
      have hfr := (tryPush_frame remote opts.tryCount _ { w1 with _tryPushCount := 0 } rfl).2.1
      cases ht : _tryPush remote opts.tryCount { w1 with _tryPushCount := 0 } with
      | mk w2 r2 =>
        rw [ht] at hfr
        simp only at hfr
        cases r2 with
        | error e => left; simp only; rw [hcc, hfr, hp]
        | ok data =>
          simp only
          have hcf := (cleanup_frame opts.tmpDir
            { w2 with log := w2.log ++ [LogLine.success] }).1
          cases hcl : _cleanupTmpFolder opts.tmpDir
              { w2 with log := w2.log ++ [LogLine.success] } with
          | mk w3 r3 =>
            rw [hcl] at hcf
            simp only at hcf
            cases r3 with
            | ok u3 => left; simp only; rw [hcf, hfr, hp]
            | error e =>
              right
              simp only
              exact ⟨by rw [hcc, hcf, hfr, hp], fun v => hcatch e w3 v⟩

end Push

/-- A push or pull whose staging directory cannot be created never settles:
the `.catch` callback calls cleanup, which cannot read the directory. -/
theorem start_pending_of_createTmpFolder_error (remote : Nat → Except Err Payload)
    (script : PullScript) (opts : Options) (w : World) (e : Err)
    (h : (_createTmpFolder opts.tmpDir w.fs).2 = Except.error e) :
    (Push.start remote opts w).2 = Settled.pending ∧
    (Pull.start script opts w).2 = Settled.pending := by
  have hm := createTmpFolder_error_missing opts.tmpDir w.fs e h
  unfold Push.start Pull.start Push._prepareFolder Pull._prepareFolder
  cases hc : _createTmpFolder opts.tmpDir w.fs with
  | mk fs1 r =>
    rw [hc] at h hm
    simp only at h hm
    subst h
    simp only
    exact ⟨catchHandler_pending_of_missing opts e _ hm,
      catchHandler_pending_of_missing opts e _ hm⟩

/-- The pull scenario of the specification on the model: the three items are
placed as `de.po`, `en.po` and `source.pot`, and the staging directory is
gone afterwards. -/
theorem pull_scenario :
    children (Pull.start scenarioScript defaultOptions freshWorld).1.fs
        defaultOptions.translationFolder
      = ["de.po".toList, "en.po".toList, "source.pot".toList] ∧
    fsFind (Pull.start scenarioScript defaultOptions freshWorld).1.fs defaultOptions.tmpDir
      = none ∧
    (Pull.start scenarioScript defaultOptions freshWorld).1.cleanupCalls = 1 ∧
    (Pull.start scenarioScript defaultOptions freshWorld).2 = Settled.resolved none := by
  decide

/-! ## First-occurrence substitution -/

/-- `replace` with one-character pattern and replacement changes the first
occurrence of the pattern and nothing else. -/
theorem replace_first (a b : Char) (pre post : Str) (h : a ∉ pre) :
    replace (pre ++ a :: post) [a] [b] = pre ++ b :: post := by
  induction pre with
  | nil => rw [List.nil_append, replace_cons, if_pos rfl, List.nil_append]
  | cons c t ih =>
    have hc : c ≠ a := fun e => h (by simp [e])
    have ht : a ∉ t := fun e => h (by simp [e])
    rw [List.cons_append, replace_cons, if_neg hc, ih ht, List.cons_append]

namespace Push

/-- The retry controller makes at least one push call and at most one more
than the number of retries the counter leaves room for. -/
theorem tryPush_calls_bound (remote : Nat → Except Err Payload) (maxCount : Int) :
    ∀ (k : Nat) (w : World), (maxCount - (w._tryPushCount + 1)).toNat = k →
      w.pushCalls + 1 ≤ (_tryPush remote maxCount w).1.pushCalls ∧
      (_tryPush remote maxCount w).1.pushCalls ≤ w.pushCalls + (k + 1) := by
  intro k
  induction k with
  | zero =>
    intro w hk
    cases h : remote w.pushCalls with
    | ok data => rw [tryPush_ok remote maxCount w data h]; simp
    | error e => rw [tryPush_last remote maxCount w e h (by omega)]; simp
  | succ k ih =>
    intro w hk
    cases h : remote w.pushCalls with
    | ok data => rw [tryPush_ok remote maxCount w data h]; simp
    | error e =>
      rw [tryPush_retry remote maxCount w e h (by omega)]
      obtain ⟨a, b⟩ := ih
        { w with _tryPushCount := w._tryPushCount + 1, pushCalls := w.pushCalls + 1,
                 log := w.log ++ [LogLine.retryNotice (w._tryPushCount + 1)] }
        (by simp only; omega)
      simp only at a b
      exact ⟨by omega, by omega⟩

end Push

/-! ## Push syncs on a clean staging directory, and their log -/

theorem copyFileSync_ok (fs fs' : FS) (src dst : Path)
    (h : copyFileSync fs src dst = Except.ok fs') :
    ∃ data, fs' = fsSet fs dst (Node.file data) := by
  unfold copyFileSync at h
  split at h
  · next data _ => exact ⟨data, writeFileSync_ok fs fs' dst data h⟩
  · simp at h
  · simp at h

theorem catchHandler_log (opts : Options) (e : Err) (w : World) :
    (catchHandler opts e w).1.log = w.log ++ [LogLine.errorContext, LogLine.errorCause e] := by
  have hf := (cleanup_frame opts.tmpDir
    { w with log := w.log ++ [LogLine.errorContext, LogLine.errorCause e] }).2.2.2.2.1
  unfold catchHandler
  cases hc : _cleanupTmpFolder opts.tmpDir
      { w with log := w.log ++ [LogLine.errorContext, LogLine.errorCause e] } with
  | mk w1 r =>
    rw [hc] at hf
    cases r <;> exact hf

theorem retryNotices_append (l₁ l₂ : List LogLine) :
    retryNotices (l₁ ++ l₂) = retryNotices l₁ ++ retryNotices l₂ := by
  unfold retryNotices
  rw [List.filterMap_append]

theorem retryNotices_map (f : Nat → Int) (l : List Nat) :
    retryNotices (l.map (fun i => LogLine.retryNotice (f i))) = l.map f := by
  unfold retryNotices
  induction l with
  | nil => rfl
  | cons a t ih => simp only [List.map_cons, List.filterMap_cons, ih]

namespace Push

theorem copyEach_log (opts : Options) :
    ∀ (files : List Str) (w : World), (copyEach opts files w).1.log = w.log := by
  intro files
  induction files with
  | nil => intro w; rfl
  | cons file rest ih =>
    intro w
    unfold copyEach
    split
    · exact ih w
    · split
      · split
        · split
          · next fs1 _ => exact ih _
          · rfl
        · exact ih w
      · exact ih w

/-- Staging prints nothing. -/
theorem prepareFolder_log (opts : Options) (w : World) :
    (_prepareFolder opts w).1.log = w.log := by
  unfold _prepareFolder
  split
  · rfl
  · split
    · rfl
    · exact copyEach_log opts _ _

theorem copyEach_clean (opts : Options) :
    ∀ (files : List Str) (w : World),
      uniqueKeys w.fs → fsFind w.fs opts.tmpDir = some Node.dir → onlyFiles w.fs opts.tmpDir →
      uniqueKeys (copyEach opts files w).1.fs ∧
      fsFind (copyEach opts files w).1.fs opts.tmpDir = some Node.dir ∧
      onlyFiles (copyEach opts files w).1.fs opts.tmpDir := by
  intro files
  induction files with
  | nil => intro w a b c; exact ⟨a, b, c⟩
  | cons file rest ih =>
    intro w a b c
    unfold copyEach
    split
    · exact ih w a b c
    · split
      · split
        · split
          · next name _ _ fs1 h1 =>
            obtain ⟨data, hd⟩ := copyFileSync_ok _ _ _ _ h1
            apply ih
            · simp only; rw [hd]; exact uniqueKeys_fsSet _ _ _ a
            · simp only; rw [hd, fsFind_fsSet_ne _ _ _ _ (self_ne_concat _ _)]; exact b
            · simp only; rw [hd]; exact onlyFiles_fsSet_file _ _ _ _ c
          · exact ⟨a, b, c⟩
        · exact ih w a b c
      · exact ih w a b c

/-- After a staging that completes on a clean staging directory, the staging
directory is a directory that holds only regular files. -/
theorem prepareFolder_clean (opts : Options) (w : World)
    (hc : cleanStaging w.fs opts.tmpDir)
    (hok : (_prepareFolder opts w).2 = Except.ok ()) :
    uniqueKeys (_prepareFolder opts w).1.fs ∧
    fsFind (_prepareFolder opts w).1.fs opts.tmpDir = some Node.dir ∧
    onlyFiles (_prepareFolder opts w).1.fs opts.tmpDir := by
  unfold _prepareFolder at hok ⊢
  have hcl := createTmpFolder_clean opts.tmpDir w.fs hc
  cases hx : _createTmpFolder opts.tmpDir w.fs with
  | mk fs1 r =>
    rw [hx] at hok hcl
    cases r with
    | error e => simp at hok
    | ok u =>
      obtain ⟨a, b, c⟩ := hcl rfl
      simp only at hok ⊢
      cases hd : readdirSync fs1 opts.translationFolder with
      | error e => rw [hd] at hok; simp at hok
      | ok files =>
        simp only
        exact copyEach_clean opts files { w with fs := fs1 } a b c

end Push

namespace Push

/-- A push whose staging completes goes on as its transfer ends: on a
rejection to the `.catch` callback, on success to cleanup and `resolve`. -/
theorem start_of_staged (remote : Nat → Except Err Payload) (opts : Options) (w : World)
    (hprep : (_prepareFolder opts w).2 = Except.ok ()) :
    start remote opts w =
      match transfer remote opts w with
      | (w2, Except.error e) => catchHandler opts e w2
      | (w2, Except.ok data) =>
        match _cleanupTmpFolder opts.tmpDir { w2 with log := w2.log ++ [LogLine.success] } with
        | (w3, Except.ok ()) => (w3, Settled.resolved (some data))
        | (w3, Except.error e) => catchHandler opts e w3 := by
  unfold start transfer
  cases hp : _prepareFolder opts w with
  | mk w1 r =>
    rw [hp] at hprep
    simp only at hprep
    subst hprep
    rfl

/-- The retry notices in the log of a push whose staging completes are those
of its transfer, and its push calls are those of its transfer. -/
theorem start_notices (remote : Nat → Except Err Payload) (opts : Options) (w : World)
    (hprep : (_prepareFolder opts w).2 = Except.ok ()) :
    retryNotices (start remote opts w).1.log = retryNotices (transfer remote opts w).1.log ∧
    (start remote opts w).1.pushCalls = (transfer remote opts w).1.pushCalls := by
  rw [start_of_staged remote opts w hprep]
  cases ht : transfer remote opts w with
  | mk w2 r =>
    cases r with
    | error e =>
      simp only
      rw [catchHandler_log, retryNotices_append]
      exact ⟨by simp [retryNotices], (catchHandler_spec opts e w2).2.1⟩
    | ok data =>
      simp only
      have hf := cleanup_frame opts.tmpDir { w2 with log := w2.log ++ [LogLine.success] }
      cases hc : _cleanupTmpFolder opts.tmpDir
          { w2 with log := w2.log ++ [LogLine.success] } with
      | mk w3 r3 =>
        rw [hc] at hf
        obtain ⟨-, hpc, -, -, hlog, -⟩ := hf
        simp only at hpc hlog
        cases r3 with
        | ok u =>
          simp only
          rw [hlog, retryNotices_append]
          exact ⟨by simp [retryNotices], hpc⟩
        | error e =>
          simp only
          rw [catchHandler_log, hlog, retryNotices_append, retryNotices_append,
            (catchHandler_spec opts e w3).2.1]
          exact ⟨by simp [retryNotices], hpc⟩

/-- A push on a clean staging directory whose staging completes settles as
its transfer does, and the staging directory is gone afterwards. -/
theorem start_of_clean (remote : Nat → Except Err Payload) (opts : Options) (w : World)
    (hclean : cleanStaging w.fs opts.tmpDir)
    (hprep : (_prepareFolder opts w).2 = Except.ok ()) :
    (start remote opts w).2 =
      (match (transfer remote opts w).2 with
        | Except.ok data => Settled.resolved (some data)
        | Except.error e => Settled.rejected e) ∧
    fsFind (start remote opts w).1.fs opts.tmpDir = none := by
  obtain ⟨a, b, c⟩ := prepareFolder_clean opts w hclean hprep
  have hfs : (transfer remote opts w).1.fs = (_prepareFolder opts w).1.fs :=
    (tryPush_frame remote opts.tryCount _
      { (_prepareFolder opts w).1 with _tryPushCount := 0 } rfl).1
  rw [start_of_staged remote opts w hprep]
  cases ht : transfer remote opts w with
  | mk w2 r =>
    rw [ht] at hfs
    simp only at hfs
    rw [← hfs] at a b c
    cases r with
    | error e =>
      simp only
      have hok := cleanup_ok_of_onlyFiles opts.tmpDir
        { w2 with log := w2.log ++ [LogLine.errorContext, LogLine.errorCause e] } a b c
      have hrm := cleanup_ok_removed opts.tmpDir _ hclean.2.1 hok
      unfold catchHandler
      cases hcl : _cleanupTmpFolder opts.tmpDir
          { w2 with log := w2.log ++ [LogLine.errorContext, LogLine.errorCause e] } with
      | mk w3 r3 =>
        rw [hcl] at hok hrm
        simp only at hok hrm
        subst hok
        exact ⟨rfl, hrm⟩
    | ok data =>
      simp only
      have hok := cleanup_ok_of_onlyFiles opts.tmpDir
        { w2 with log := w2.log ++ [LogLine.success] } a b c
      have hrm := cleanup_ok_removed opts.tmpDir _ hclean.2.1 hok
      cases hcl : _cleanupTmpFolder opts.tmpDir
          { w2 with log := w2.log ++ [LogLine.success] } with
      | mk w3 r3 =>
        rw [hcl] at hok hrm
        simp only at hok hrm
        subst hok
        exact ⟨rfl, hrm⟩

end Push

namespace Push

/-- The world on which `start` enters the retry controller has the log and
the push calls of the world before the sync. -/
theorem transfer_entry (opts : Options) (w : World) :
    ({ (_prepareFolder opts w).1 with _tryPushCount := 0 } : World).pushCalls = w.pushCalls ∧
    ({ (_prepareFolder opts w).1 with _tryPushCount := 0 } : World).log = w.log :=
  ⟨(prepareFolder_calls opts w).1, prepareFolder_log opts w⟩

end Push

namespace Push

theorem copyEach_cons_skip (opts : Options) (file : Str) (rest : List Str) (w : World)
    (h : copyFor opts file = none) :
    copyEach opts (file :: rest) w = copyEach opts rest w := by
  unfold copyFor at h
  rw [copyEach]
  by_cases hex : file ∈ opts.excludeFiles
  · rw [if_pos hex]
  · rw [if_neg hex] at h ⊢
    cases hn : newFileName opts file with
    | none => rfl
    | some name =>
      rw [hn] at h
      simp only at h ⊢
      have ht := newFileName_truthy opts file name hn
      rw [if_pos ht] at h
      simp at h

theorem copyEach_cons_copy (opts : Options) (file : Str) (rest : List Str) (w : World)
    (src dst : Path) (h : copyFor opts file = some (src, dst)) :
    copyEach opts (file :: rest) w =
      match copyFileSync w.fs src dst with
      | Except.ok fs1 =>
        copyEach opts rest { w with fs := fs1, copies := w.copies ++ [(src, dst)] }
      | Except.error e => (w, Except.error e) := by
  unfold copyFor at h
  rw [copyEach]
  by_cases hex : file ∈ opts.excludeFiles
  · rw [if_pos hex] at h; simp at h
  · rw [if_neg hex] at h ⊢
    cases hn : newFileName opts file with
    | none => rw [hn] at h; simp at h
    | some name =>
      rw [hn] at h
      have ht := newFileName_truthy opts file name hn
      simp only [ht, if_true, Option.some.injEq, Prod.mk.injEq] at h ⊢
      obtain ⟨rfl, rfl⟩ := h
      rfl

/-- The transfer of a push makes at least one push call and at most
`max 1 tryCount`. -/
theorem transfer_calls_bound (remote : Nat → Except Err Payload) (opts : Options) (w : World) :
    w.pushCalls + 1 ≤ (transfer remote opts w).1.pushCalls ∧
    (transfer remote opts w).1.pushCalls ≤ w.pushCalls + max 1 opts.tryCount.toNat := by
  have hpc := (prepareFolder_calls opts w).1
  obtain ⟨h1, h2⟩ := tryPush_calls_bound remote opts.tryCount
    (opts.tryCount - (0 + 1)).toNat
    { (_prepareFolder opts w).1 with _tryPushCount := 0 } rfl
  unfold transfer
  have e : ({ (_prepareFolder opts w).1 with _tryPushCount := 0 } : World).pushCalls
      = w.pushCalls := hpc
  rw [e] at h1 h2
  refine ⟨h1, ?_⟩
  have : (opts.tryCount - (0 + 1)).toNat + 1 = max 1 opts.tryCount.toNat := by omega
  omega

end Push

/-! ## The counter left by an earlier sync -/

theorem cleanup_setCount (tmpDir : Path) (w : World) (c : Int) :
    _cleanupTmpFolder tmpDir { w with _tryPushCount := c } =
      ({ (_cleanupTmpFolder tmpDir w).1 with _tryPushCount := c },
        (_cleanupTmpFolder tmpDir w).2) := by
  unfold _cleanupTmpFolder
  simp only
  cases readdirSync w.fs tmpDir with
  | error e => rfl
  | ok files =>
    simp only
    cases unlinkEach tmpDir files w.fs with
    | mk fs1 r =>
      cases r with
      | error e => rfl
      | ok u =>
        simp only
        cases rmdirSync fs1 tmpDir <;> rfl

theorem catchHandler_setCount (opts : Options) (e : Err) (w : World) (c : Int) :
    catchHandler opts e { w with _tryPushCount := c } =
      ({ (catchHandler opts e w).1 with _tryPushCount := c }, (catchHandler opts e w).2) := by
  unfold catchHandler
  have h := cleanup_setCount opts.tmpDir
    { w with log := w.log ++ [LogLine.errorContext, LogLine.errorCause e] } c
  simp only at h ⊢
  rw [h]
  cases _cleanupTmpFolder opts.tmpDir
      { w with log := w.log ++ [LogLine.errorContext, LogLine.errorCause e] } with
  | mk w1 r => cases r <;> rfl

namespace Push

theorem copyEach_setCount (opts : Options) (c : Int) :
    ∀ (files : List Str) (w : World),
      copyEach opts files { w with _tryPushCount := c } =
        ({ (copyEach opts files w).1 with _tryPushCount := c }, (copyEach opts files w).2) := by
  intro files
  induction files with
  | nil => intro w; rfl
  | cons file rest ih =>
    intro w
    cases hcf : copyFor opts file with
    | none =>
      rw [copyEach_cons_skip opts file rest _ hcf, copyEach_cons_skip opts file rest _ hcf]
      exact ih w
    | some p =>
      obtain ⟨src, dst⟩ := p
      rw [copyEach_cons_copy opts file rest _ src dst hcf,
        copyEach_cons_copy opts file rest _ src dst hcf]
      simp only
      cases copyFileSync w.fs src dst with
      | error e => rfl
      | ok fs1 =>
        exact ih { w with fs := fs1, copies := w.copies ++ [(src, dst)] }

theorem prepareFolder_setCount (opts : Options) (w : World) (c : Int) :
    _prepareFolder opts { w with _tryPushCount := c } =
      ({ (_prepareFolder opts w).1 with _tryPushCount := c }, (_prepareFolder opts w).2) := by
  unfold _prepareFolder
  simp only
  cases _createTmpFolder opts.tmpDir w.fs with
  | mk fs1 r =>
    cases r with
    | error e => rfl
    | ok u =>
      simp only
      cases readdirSync fs1 opts.translationFolder with
      | error e => rfl
      | ok files => exact copyEach_setCount opts c files { w with fs := fs1 }

/-- A push sync does not read the counter it finds: started with any other
counter value it settles the same way and leaves the same world, the counter
apart (which a failed staging leaves as it was). -/
theorem start_setCount (remote : Nat → Except Err Payload) (opts : Options) (w : World)
    (c : Int) :
    (start remote opts { w with _tryPushCount := c }).2 = (start remote opts w).2 ∧
    (start remote opts { w with _tryPushCount := c }).1.pushCalls
      = (start remote opts w).1.pushCalls ∧
    (start remote opts { w with _tryPushCount := c }).1.log = (start remote opts w).1.log ∧
    (start remote opts { w with _tryPushCount := c }).1.fs = (start remote opts w).1.fs := by
  unfold start
  rw [prepareFolder_setCount]
  cases _prepareFolder opts w with
  | mk w1 r =>
    cases r with
    | error e =>
      simp only
      rw [catchHandler_setCount]
      exact ⟨rfl, rfl, rfl, rfl⟩
    | ok u => exact ⟨rfl, rfl, rfl, rfl⟩

end Push

/-! ## `_createTmpFolder` twice -/

/-- One `if (!fs.existsSync(p)) fs.mkdirSync(p)` step that does not throw
leaves `p` existing and every entry that was there as it was. -/
theorem mkdirStep_keeps (fs0 fs1 : FS) (p : Path)
    (h : (if !existsSync fs0 p then mkdirSync fs0 p else Except.ok fs0) = Except.ok fs1) :
    existsSync fs1 p = true ∧ ∀ q n, fsFind fs0 q = some n → fsFind fs1 q = some n := by
  split at h
  · next hex =>
    have hnone : fsFind fs0 p = none := by
      unfold existsSync at hex
      cases hf : fsFind fs0 p with
      | none => rfl
      | some x => rw [hf] at hex; simp at hex
    have hp : p ≠ [] := by
      intro e
      rw [e, fsFind_root] at hnone
      simp at hnone
    rw [mkdirSync_ok fs0 fs1 p h]
    constructor
    · unfold existsSync
      rw [fsFind_fsSet_self fs0 p _ hp]
      rfl
    · intro q n hq
      have hqp : q ≠ p := by
        intro e
        rw [e, hnone] at hq
        simp at hq
      rw [fsFind_fsSet_ne fs0 p q _ hqp]
      exact hq
  · next hex =>
    cases h
    exact ⟨by simpa using hex, fun _ _ hq => hq⟩

/-! ## Cleanup of an empty and of an absent directory -/

/-- Cleanup of an empty directory returns. -/
theorem cleanup_ok_of_empty (tmpDir : Path) (w : World)
    (hd : fsFind w.fs tmpDir = some Node.dir) (he : children w.fs tmpDir = []) :
    (_cleanupTmpFolder tmpDir w).2 = Except.ok () := by
  unfold _cleanupTmpFolder readdirSync
  simp only [hd, he, unlinkEach]
  unfold rmdirSync
  simp only [hd, he, if_true]

/-- Cleanup of an absent directory throws the error of `readdirSync`, and
changes nothing. -/
theorem cleanup_error_of_missing (tmpDir : Path) (w : World)
    (h : fsFind w.fs tmpDir = none) :
    (_cleanupTmpFolder tmpDir w).2 = Except.error (missingErr w.fs tmpDir) ∧
    (_cleanupTmpFolder tmpDir w).1.fs = w.fs := by
  unfold _cleanupTmpFolder readdirSync
  simp only [h, and_self]

/-! ## Requests without project id or version -/

namespace Pull

/-- A pull whose staging completes issues exactly one pull call. -/
theorem start_pullCalls (script : PullScript) (opts : Options) (w : World)
    (hprep : (_prepareFolder opts w).2 = Except.ok ()) :
    (start script opts w).1.pullCalls = w.pullCalls + 1 := by
  have hcatch : ∀ (e : Err) (w0 : World),
      (catchHandler opts e w0).1.pullCalls = w0.pullCalls := by
    intro e w0
    have hf := (cleanup_frame opts.tmpDir
      { w0 with log := w0.log ++ [LogLine.errorContext, LogLine.errorCause e] }).2.2.1
    unfold catchHandler
    cases hc : _cleanupTmpFolder opts.tmpDir
        { w0 with log := w0.log ++ [LogLine.errorContext, LogLine.errorCause e] } with
    | mk w1 r =>
      rw [hc] at hf
      cases r <;> exact hf
  have hplace : ∀ (files : List Str) (w0 : World),
      (copyEach opts files w0).1.pullCalls = w0.pullCalls := by
    intro files
    induction files with
    | nil => intro w0; rfl
    | cons file rest ih =>
      intro w0
      unfold copyEach
      split
      · split
        · split
          · next fs1 _ => exact ih _
          · rfl
        · exact ih w0
      · exact ih w0
  unfold start
  unfold _prepareFolder at hprep ⊢
  cases hc : _createTmpFolder opts.tmpDir w.fs with
  | mk fs1 r =>
    rw [hc] at hprep
    cases r with
    | error e => simp at hprep
    | ok u =>
      simp only [pull]
      cases script.terminal with
      | error e => simp only; rw [hcatch]
      | ok data =>
        simp only
        unfold _moveToOutput
        simp only
        cases readdirSync (script.items.foldl (onDataPull opts) fs1) opts.tmpDir with
        | error e => simp only; rw [hcatch]
        | ok files =>
          simp only
          have hp := hplace files
            { w with fs := script.items.foldl (onDataPull opts) fs1,
                     pullCalls := w.pullCalls + 1 }
          cases hcp : copyEach opts files
              { w with fs := script.items.foldl (onDataPull opts) fs1,
                       pullCalls := w.pullCalls + 1 } with
          | mk w3 r3 =>
            rw [hcp] at hp
            simp only at hp
            cases r3 with
            | error e => simp only; rw [hcatch, hp]
            | ok u3 =>
              simp only
              have hfr := (cleanup_frame opts.tmpDir
                { w3 with log := w3.log ++ [LogLine.success] }).2.2.1
              cases hcl : _cleanupTmpFolder opts.tmpDir
                  { w3 with log := w3.log ++ [LogLine.success] } with
              | mk w4 r4 =>
                rw [hcl] at hfr
                simp only at hfr
                cases r4 with
                | ok u4 => simp only; rw [hfr, hp]
                | error e => simp only; rw [hcatch, hfr, hp]

end Pull


namespace Push

/-- The staging loop of a push does not read the project id or the version. -/
theorem copyEach_congr (opts : Options) (p v : Option Str) :
    ∀ (files : List Str) (w : World),
      copyEach { opts with projectId := p, version := v } files w = copyEach opts files w := by
  intro files
  induction files with
  | nil => intro w; rfl
  | cons file rest ih =>
    intro w
    have hc : copyFor { opts with projectId := p, version := v } file = copyFor opts file := rfl
    cases hcf : copyFor opts file with
    | none =>
      rw [copyEach_cons_skip _ file rest _ (hc.trans hcf), copyEach_cons_skip opts file rest _ hcf]
      exact ih w
    | some sd =>
      obtain ⟨src, dst⟩ := sd
      rw [copyEach_cons_copy _ file rest _ src dst (hc.trans hcf),
        copyEach_cons_copy opts file rest _ src dst hcf]
      cases copyFileSync w.fs src dst with
      | error e => rfl
      | ok fs1 => exact ih _

/-- Staging of a push does not read the project id or the version. -/
theorem prepareFolder_congr (opts : Options) (p v : Option Str) (w : World) :
    _prepareFolder { opts with projectId := p, version := v } w = _prepareFolder opts w := by
  unfold _prepareFolder
  simp only [copyEach_congr]

/-- In the model, where the text of the messages and the answers of the remote
are given, a push does not depend on the project id or on the version. -/
theorem start_congr (remote : Nat → Except Err Payload) (opts : Options) (p v : Option Str)
    (w : World) :
    start remote { opts with projectId := p, version := v } w = start remote opts w := by
  unfold start
  rw [prepareFolder_congr]
  rfl

end Push

namespace Pull

/-- The placement loop of a pull does not read the project id or the version. -/
theorem placeEach_congr (opts : Options) (p v : Option Str) :
    ∀ (files : List Str) (w : World),
      copyEach { opts with projectId := p, version := v } files w = copyEach opts files w := by
  intro files
  induction files with
  | nil => intro w; rfl
  | cons file rest ih =>
    intro w
    have hn : newFileName { opts with projectId := p, version := v } file
        = newFileName opts file := rfl
    rw [copyEach, copyEach, hn]
    cases newFileName opts file with
    | none => exact ih w
    | some name =>
      simp only
      split
      · cases copyFileSync w.fs (opts.tmpDir ++ [file]) (opts.translationFolder ++ [name]) with
        | error e => rfl
        | ok fs1 => exact ih _
      · exact ih w

/-- In the model, where the text of the messages and the events of the remote
are given, a pull does not depend on the project id or on the version. -/
theorem pull_start_congr (script : PullScript) (opts : Options) (p v : Option Str) (w : World) :
    start script { opts with projectId := p, version := v } w = start script opts w := by
  unfold start _moveToOutput
  simp only [placeEach_congr]
  rfl

end Pull

/-! ## The regular files of a folder across a push -/

theorem fileAt_fsSet_ne (fs : FS) (p q : Path) (n : Node) (h : q ≠ p) :
    fileAt (fsSet fs p n) q = fileAt fs q := by
  unfold fileAt
  rw [fsFind_fsSet_ne fs p q n h]

theorem fileAt_fsRemove_ne (fs : FS) (p q : Path) (h : p ≠ q) :
    fileAt (fsRemove fs p) q = fileAt fs q := by
  unfold fileAt
  rw [fsFind_fsRemove_ne p q h fs]

/-- A directory made by `mkdirSync` changes no regular file. -/
theorem fileAt_mkdirSync (fs fs' : FS) (p : Path) (h : mkdirSync fs p = Except.ok fs')
    (q : Path) : fileAt fs' q = fileAt fs q := by
  have hset := mkdirSync_ok fs fs' p h
  subst hset
  by_cases hq : q = p
  · subst hq
    have hnone : fsFind fs q = none := by
      unfold mkdirSync at h
      cases hf : fsFind fs q with
      | none => rfl
      | some n => rw [hf] at h; simp at h
    have hne : q ≠ [] := by
      intro e
      rw [e, fsFind_root] at hnone
      simp at hnone
    unfold fileAt
    rw [fsFind_fsSet_self fs q Node.dir hne, hnone]
  · exact fileAt_fsSet_ne fs p q Node.dir hq

theorem fileAt_mkdirStep (fs0 : FS) (p q : Path) :
    ∀ fs1, (if !existsSync fs0 p then mkdirSync fs0 p else Except.ok fs0) = Except.ok fs1 →
      fileAt fs1 q = fileAt fs0 q := by
  intro fs1 h
  split at h
  · exact fileAt_mkdirSync fs0 fs1 p h q
  · simp only [Except.ok.injEq] at h
    rw [h]

/-- Whether it returns or throws, `_createTmpFolder` changes no regular file. -/
theorem createTmpFolder_fileAt (tmpDir : Path) (fs : FS) (q : Path) :
    fileAt (_createTmpFolder tmpDir fs).1 q = fileAt fs q := by
  unfold _createTmpFolder
  cases h1 : (if !existsSync fs ["tmp".toList] then mkdirSync fs ["tmp".toList]
      else Except.ok fs) with
  | error e => rfl
  | ok fs1 =>
    simp only
    have a := fileAt_mkdirStep fs ["tmp".toList] q fs1 h1
    cases h2 : (if !existsSync fs1 tmpDir then mkdirSync fs1 tmpDir else Except.ok fs1) with
    | error e => exact a
    | ok fs2 =>
      simp only
      exact (fileAt_mkdirStep fs1 tmpDir q fs2 h2).trans a

theorem fileAt_copyFileSync (fs fs' : FS) (src dst q : Path)
    (h : copyFileSync fs src dst = Except.ok fs') (hq : q ≠ dst) :
    fileAt fs' q = fileAt fs q := by
  obtain ⟨data, rfl⟩ := copyFileSync_ok fs fs' src dst h
  exact fileAt_fsSet_ne fs dst q _ hq

theorem concat_ne_of_ne (d1 d2 : Path) (a b : Str) (h : d1 ≠ d2) : d1 ++ [a] ≠ d2 ++ [b] := by
  intro e
  apply h
  have e2 := congrArg List.dropLast e
  simpa using e2

/-- The `unlinkSync` loop of cleanup changes no regular file outside the
directory it empties. -/
theorem unlinkEach_fileAt (tmpDir q : Path) (hq : ∀ file : Str, tmpDir ++ [file] ≠ q) :
    ∀ (files : List Str) (fs : FS), fileAt (unlinkEach tmpDir files fs).1 q = fileAt fs q := by
  intro files
  induction files with
  | nil => intro fs; rfl
  | cons file rest ih =>
    intro fs
    unfold unlinkEach
    cases h1 : unlinkSync fs (tmpDir ++ [file]) with
    | error e => rfl
    | ok fs1 =>
      simp only
      rw [ih, unlinkSync_ok fs fs1 _ h1, fileAt_fsRemove_ne fs _ q (hq file)]

/-- Removing a directory changes no regular file. -/
theorem fileAt_rmdirSync (fs fs' : FS) (p : Path) (h : rmdirSync fs p = Except.ok fs')
    (q : Path) : fileAt fs' q = fileAt fs q := by
  have hrm := (rmdirSync_ok fs fs' p h).1
  subst hrm
  by_cases hq : p = q
  · subst hq
    have hdir : fsFind fs p = some Node.dir := by
      unfold rmdirSync at h
      cases hf : fsFind fs p with
      | none => rw [hf] at h; simp at h
      | some n =>
        cases n with
        | dir => rfl
        | file d => rw [hf] at h; simp at h
    unfold fileAt
    rw [hdir]
    by_cases hp : p = []
    · rw [hp, fsFind_root]
    · rw [fsFind_fsRemove_self p hp fs]
  · exact fileAt_fsRemove_ne fs p q hq

/-- Whether it returns or throws, cleanup of `tmpDir` changes no regular file
of another directory. -/
theorem cleanup_fileAt (tmpDir dir : Path) (hd : tmpDir ≠ dir) (name : Str) (w : World) :
    fileAt (_cleanupTmpFolder tmpDir w).1.fs (dir ++ [name]) = fileAt w.fs (dir ++ [name]) := by
  have hq : ∀ file : Str, tmpDir ++ [file] ≠ dir ++ [name] :=
    fun file => concat_ne_of_ne tmpDir dir file name hd
  unfold _cleanupTmpFolder
  simp only
  cases h1 : readdirSync w.fs tmpDir with
  | error e => rfl
  | ok files =>
    simp only
    have hu := unlinkEach_fileAt tmpDir (dir ++ [name]) hq files w.fs
    cases h2 : unlinkEach tmpDir files w.fs with
    | mk fs1 r =>
      rw [h2] at hu
      simp only at hu
      cases r with
      | error e => exact hu
      | ok u =>
        simp only
        cases h3 : rmdirSync fs1 tmpDir with
        | error e => exact hu
        | ok fs2 =>
          simp only
          exact (fileAt_rmdirSync fs1 fs2 tmpDir h3 _).trans hu

theorem catchHandler_fileAt (opts : Options) (dir : Path) (hd : opts.tmpDir ≠ dir)
    (name : Str) (e : Err) (w : World) :
    fileAt (catchHandler opts e w).1.fs (dir ++ [name]) = fileAt w.fs (dir ++ [name]) := by
  have h := cleanup_fileAt opts.tmpDir dir hd name
    { w with log := w.log ++ [LogLine.errorContext, LogLine.errorCause e] }
  unfold catchHandler
  cases hc : _cleanupTmpFolder opts.tmpDir
      { w with log := w.log ++ [LogLine.errorContext, LogLine.errorCause e] } with
  | mk w1 r =>
    rw [hc] at h
    cases r <;> exact h

namespace Push

/-- The staging loop of a push changes no regular file outside the staging
directory. -/
theorem copyEach_fileAt (opts : Options) (dir : Path) (hd : opts.tmpDir ≠ dir) (name : Str) :
    ∀ (files : List Str) (w : World),
      fileAt (copyEach opts files w).1.fs (dir ++ [name]) = fileAt w.fs (dir ++ [name]) := by
  intro files
  induction files with
  | nil => intro w; rfl
  | cons file rest ih =>
    intro w
    cases hcf : copyFor opts file with
    | none =>
      rw [copyEach_cons_skip opts file rest _ hcf]
      exact ih w
    | some sd =>
      obtain ⟨src, dst⟩ := sd
      rw [copyEach_cons_copy opts file rest _ src dst hcf]
      have hdst : dir ++ [name] ≠ dst := by
        rcases ((copyFor_eq_some_iff opts file src dst).mp hcf).2.2 with h | h
        · rw [h.2]; exact concat_ne_of_ne _ _ _ _ (Ne.symm hd)
        · rw [h.2]; exact concat_ne_of_ne _ _ _ _ (Ne.symm hd)
      cases hcp : copyFileSync w.fs src dst with
      | error e => rfl
      | ok fs1 =>
        simp only
        rw [ih]
        exact fileAt_copyFileSync w.fs fs1 src dst _ hcp hdst

theorem prepareFolder_fileAt (opts : Options) (dir : Path) (hd : opts.tmpDir ≠ dir)
    (name : Str) (w : World) :
    fileAt (_prepareFolder opts w).1.fs (dir ++ [name]) = fileAt w.fs (dir ++ [name]) := by
  have hc := createTmpFolder_fileAt opts.tmpDir w.fs (dir ++ [name])
  unfold _prepareFolder
  cases h1 : _createTmpFolder opts.tmpDir w.fs with
  | mk fs1 r =>
    rw [h1] at hc
    simp only at hc
    cases r with
    | error e => exact hc
    | ok u =>
      simp only
      cases h2 : readdirSync fs1 opts.translationFolder with
      | error e => exact hc
      | ok files =>
        simp only
        rw [copyEach_fileAt opts dir hd name files]
        exact hc

/-- However it ends, a push changes no regular file of a directory other than
the staging directory (for staged names that are single path components, the
reading of `path.join` in `copyEach`). -/
theorem start_fileAt (remote : Nat → Except Err Payload) (opts : Options) (dir : Path)
    (hd : opts.tmpDir ≠ dir) (name : Str) (w : World) :
    fileAt (start remote opts w).1.fs (dir ++ [name]) = fileAt w.fs (dir ++ [name]) := by
  have hp := prepareFolder_fileAt opts dir hd name w
  unfold start
  cases h1 : _prepareFolder opts w with
  | mk w1 r =>
    rw [h1] at hp
    simp only at hp
    cases r with
    | error e =>
      simp only
      rw [catchHandler_fileAt opts dir hd name]
      exact hp
    | ok u =>
      simp only
      have hfs := (tryPush_frame remote opts.tryCount _ { w1 with _tryPushCount := 0 } rfl).1
      cases h2 : _tryPush remote opts.tryCount { w1 with _tryPushCount := 0 } with
      | mk w2 r2 =>
        rw [h2] at hfs
        simp only at hfs
        cases r2 with
        | error e =>
          simp only
          rw [catchHandler_fileAt opts dir hd name, hfs]
          exact hp
        | ok data =>
          simp only
          have hcl := cleanup_fileAt opts.tmpDir dir hd name
            { w2 with log := w2.log ++ [LogLine.success] }
          cases h3 : _cleanupTmpFolder opts.tmpDir
              { w2 with log := w2.log ++ [LogLine.success] } with
          | mk w3 r3 =>
            rw [h3] at hcl
            simp only at hcl
            cases r3 with
            | ok u3 =>
              simp only
              rw [hcl, hfs]
              exact hp
            | error e =>
              simp only
              rw [catchHandler_fileAt opts dir hd name, hcl, hfs]
              exact hp

end Push

/-- What the `.catch` callback does to the file system, and whether it
rejects, depends on the file system only. -/
theorem catchHandler_of_fs (opts : Options) (e : Err) (w w' : World) (h : w.fs = w'.fs) :
    (catchHandler opts e w).1.fs = (catchHandler opts e w').1.fs ∧
    (catchHandler opts e w).2 = (catchHandler opts e w').2 := by
  unfold catchHandler _cleanupTmpFolder
  simp only
  rw [h]
  cases readdirSync w'.fs opts.tmpDir with
  | error x => exact ⟨rfl, rfl⟩
  | ok files =>
    simp only
    cases unlinkEach opts.tmpDir files w'.fs with
    | mk fs1 r =>
      cases r with
      | error x => exact ⟨rfl, rfl⟩
      | ok u =>
        simp only
        cases rmdirSync fs1 opts.tmpDir with
        | error x => exact ⟨rfl, rfl⟩
        | ok fs2 => exact ⟨rfl, rfl⟩

namespace Push

/-- A push whose staging completes and whose attempts all fail ends in the
`.catch` callback, run on the staged file system with the last error. -/
theorem start_exhausted (remote : Nat → Except Err Payload) (opts : Options) (w : World)
    (hprep : (_prepareFolder opts w).2 = Except.ok ()) (cause : Nat → Err)
    (hfail : ∀ i, i ≤ (opts.tryCount - 1).toNat →
      remote (w.pushCalls + i) = Except.error (cause i)) :
    (transfer remote opts w).2 = Except.error (cause (opts.tryCount - 1).toNat) ∧
    (start remote opts w).1.fs
      = (catchHandler opts (cause (opts.tryCount - 1).toNat) (_prepareFolder opts w).1).1.fs ∧
    (start remote opts w).2
      = (catchHandler opts (cause (opts.tryCount - 1).toNat) (_prepareFolder opts w).1).2 := by
  obtain ⟨hpc, -⟩ := transfer_entry opts w
  have hall := (tryPush_all_fail remote opts.tryCount (opts.tryCount - 1).toNat cause
    { (_prepareFolder opts w).1 with _tryPushCount := 0 } (by simp)
    (by rw [hpc]; exact hfail)).1
  have hfs : (transfer remote opts w).1.fs = (_prepareFolder opts w).1.fs :=
    (tryPush_frame remote opts.tryCount _
      { (_prepareFolder opts w).1 with _tryPushCount := 0 } rfl).1
  have ht : (transfer remote opts w).2 = Except.error (cause (opts.tryCount - 1).toNat) := hall
  refine ⟨ht, ?_⟩
  rw [start_of_staged remote opts w hprep]
  cases hx : transfer remote opts w with
  | mk w2 r =>
    rw [hx] at ht hfs
    simp only at ht hfs
    subst ht
    simp only
    exact catchHandler_of_fs opts _ w2 _ hfs

end Push

/-! ## How `start` settles -/

/-- A push sync that ends resolved is resolved with the `end_push` data of the
last push call it made; a pull sync that ends resolved is resolved with no
value, although its transfer ended with an `end_pull` event carrying data. -/
theorem start_resolved_value (remote : Nat → Except Err Payload) (script : PullScript)
    (opts : Options) (w : World) :
    (∀ v, (Push.start remote opts w).2 = Settled.resolved v →
      ∃ data, v = some data ∧ w.pushCalls < (Push.start remote opts w).1.pushCalls ∧
        remote ((Push.start remote opts w).1.pushCalls - 1) = Except.ok data) ∧
    (∀ v, (Pull.start script opts w).2 = Settled.resolved v →
      v = none ∧ ∃ data, script.terminal = Except.ok data) := by
  have hcatch : ∀ (e : Err) (w0 : World) (v : Option Payload),
      (catchHandler opts e w0).2 ≠ Settled.resolved v := by
    intro e w0 v h
    rcases (catchHandler_spec opts e w0).2.2.2.2.1 with h1 | h1 <;> rw [h1] at h <;> simp at h
  constructor
  · intro v hv
    unfold Push.start at hv ⊢
    cases hp : Push._prepareFolder opts w with
    | mk w1 r =>
      rw [hp] at hv
      cases r with
      | error e => exact absurd hv (hcatch e w1 v)
      | ok u =>
        simp only at hv ⊢
        cases ht : Push._tryPush remote opts.tryCount { w1 with _tryPushCount := 0 } with
        | mk w2 r2 =>
          rw [ht] at hv
          cases r2 with
          | error e => exact absurd hv (hcatch e w2 v)
          | ok data =>
            simp only at hv ⊢
            have hlast := Push.tryPush_ok_last remote opts.tryCount data _
              { w1 with _tryPushCount := 0 } rfl (by rw [ht])
            rw [ht] at hlast
            have hfr := cleanup_frame opts.tmpDir { w2 with log := w2.log ++ [LogLine.success] }
            cases hc : _cleanupTmpFolder opts.tmpDir
                { w2 with log := w2.log ++ [LogLine.success] } with
            | mk w3 r3 =>
              rw [hc] at hv hfr
              cases r3 with
              | error e => exact absurd hv (hcatch e w3 v)
              | ok u3 =>
                simp only [Settled.resolved.injEq] at hv
                have hpc := (Push.prepareFolder_calls opts w).1
                rw [hp] at hpc
                simp only at hfr hlast hpc ⊢
                refine ⟨data, hv.symm, ?_, ?_⟩
                · rw [hfr.2.1]; omega
                · rw [hfr.2.1]; exact hlast.2
  · intro v hv
    unfold Pull.start at hv
    cases hp : Pull._prepareFolder opts w with
    | mk w1 r =>
      rw [hp] at hv
      cases r with
      | error e => exact absurd hv (hcatch e w1 v)
      | ok u =>
        simp only [pull] at hv
        cases ht : script.terminal with
        | error e =>
          rw [ht] at hv
          exact absurd hv (hcatch e _ v)
        | ok data =>
          rw [ht] at hv
          simp only at hv
          refine ⟨?_, data, rfl⟩
          cases hm : Pull._moveToOutput opts
              { w1 with pullCalls := w1.pullCalls + 1,
                        fs := script.items.foldl (onDataPull opts) w1.fs } with
          | mk w3 r3 =>
            rw [hm] at hv
            cases r3 with
            | error e => exact absurd hv (hcatch e w3 v)
            | ok u3 =>
              simp only at hv
              cases hc : _cleanupTmpFolder opts.tmpDir
                  { w3 with log := w3.log ++ [LogLine.success] } with
              | mk w4 r4 =>
                rw [hc] at hv
                cases r4 with
                | error e => exact absurd hv (hcatch e w4 v)
                | ok u4 =>
                  simp only [Settled.resolved.injEq] at hv
                  exact hv.symm

/-- For a pull whose staging directory is neither the translation folder nor
inside it, and whose transfer ends with the `fail` event with cause `e` after
any incremental items: no file is copied (no placement) and the entries of
the translation folder are the same after the sync as before; the promise is
rejected with `e` or stays pending, and when it is rejected no entry is left
in the staging directory; when the staging directory was absent or held only
regular files before the sync, the promise is rejected with `e` and the
staging directory is gone. -/
theorem failed_pull_leaves_translations (script : PullScript) (opts : Options)
    (w : World) (e : Err)
    (hT : ¬ opts.translationFolder <+: opts.tmpDir)
    (hprep : (Pull._prepareFolder opts w).2 = Except.ok ())
    (hfail : script.terminal = Except.error e) :
    (Pull.start script opts w).1.copies = w.copies ∧
    folderFiles (Pull.start script opts w).1.fs opts.translationFolder
      = folderFiles w.fs opts.translationFolder ∧
    ((Pull.start script opts w).2 = Settled.rejected e ∨
      (Pull.start script opts w).2 = Settled.pending) ∧
    ((Pull.start script opts w).2 = Settled.rejected e →
      ∀ name, fsFind (Pull.start script opts w).1.fs (opts.tmpDir ++ [name]) = none) ∧
    (cleanStaging w.fs opts.tmpDir →
      (Pull.start script opts w).2 = Settled.rejected e ∧
      fsFind (Pull.start script opts w).1.fs opts.tmpDir = none) := by
  rw [Pull.start_of_failed_transfer script opts w e hprep hfail]
  obtain ⟨-, -, hc, hd, hr, hg⟩ := catchHandler_spec opts e
    { w with fs := script.items.foldl (onDataPull opts)
                     (_createTmpFolder opts.tmpDir w.fs).1,
             pullCalls := w.pullCalls + 1 }
  refine ⟨hc, ?_, hr, hg, ?_⟩
  · rw [hd _ hT]
    simp only
    rw [foldl_onDataPull_folderFiles opts _ hT, createTmpFolder_folderFiles _ _ _ hT]
  · intro hclean
    have hcr : (_createTmpFolder opts.tmpDir w.fs).2 = Except.ok () := by
      unfold Pull._prepareFolder at hprep
      cases hx : _createTmpFolder opts.tmpDir w.fs with
      | mk fs1 r =>
        rw [hx] at hprep
        cases r with
        | error e' => simp at hprep
        | ok u => rfl
    obtain ⟨a1, a2, a3⟩ := createTmpFolder_clean opts.tmpDir w.fs hclean hcr
    obtain ⟨b1, b2, b3⟩ := foldl_onDataPull_clean opts script.items _ a1 a2 a3
    have hok := cleanup_ok_of_onlyFiles opts.tmpDir
      { w with fs := script.items.foldl (onDataPull opts)
                       (_createTmpFolder opts.tmpDir w.fs).1,
               pullCalls := w.pullCalls + 1,
               log := w.log ++ [LogLine.errorContext, LogLine.errorCause e] } b1 b2 b3
    have hrm := cleanup_ok_removed opts.tmpDir _ hclean.2.1 hok
    unfold catchHandler
    simp only
    cases hcl : _cleanupTmpFolder opts.tmpDir
        { w with fs := script.items.foldl (onDataPull opts)
                         (_createTmpFolder opts.tmpDir w.fs).1,
                 pullCalls := w.pullCalls + 1,
                 log := w.log ++ [LogLine.errorContext, LogLine.errorCause e] } with
    | mk w1 r =>
      rw [hcl] at hok hrm
      simp only at hok hrm
      subst hok
      exact ⟨rfl, hrm⟩

/-- In a push with `tryCount = N` whose staging completes: when the first
successful attempt is attempt `k`, `1 ≤ k ≤ N`, the retry controller resolves
with its payload and the sync has logged exactly `k - 1` retry notices, the
`i`-th reporting try number `i`; the sync itself resolves with the payload
when the staging directory was absent or held only regular files before the
sync. When all `N` attempts fail, `N ≥ 1`, the sync has logged exactly
`N - 1` retry notices, numbered likewise. -/
theorem start_retry_notices (remote : Nat → Except Err Payload) (opts : Options) (w : World)
    (N : Nat) (hN : opts.tryCount = (N : Int))
    (hprep : (Push._prepareFolder opts w).2 = Except.ok ()) :
    (∀ k data, 1 ≤ k → k ≤ N →
      (∀ i, i < k - 1 → ∃ e, remote (w.pushCalls + i) = Except.error e) →
      remote (w.pushCalls + (k - 1)) = Except.ok data →
      (Push.transfer remote opts w).2 = Except.ok data ∧
      retryNotices (Push.start remote opts w).1.log
        = retryNotices w.log ++ (List.range (k - 1)).map (fun (i : Nat) => (i : Int) + 1) ∧
      (cleanStaging w.fs opts.tmpDir →
        (Push.start remote opts w).2 = Settled.resolved (some data))) ∧
    (1 ≤ N → ∀ cause : Nat → Err,
      (∀ i, i < N → remote (w.pushCalls + i) = Except.error (cause i)) →
      (Push.transfer remote opts w).2 = Except.error (cause (N - 1)) ∧
      retryNotices (Push.start remote opts w).1.log
        = retryNotices w.log ++ (List.range (N - 1)).map (fun (i : Nat) => (i : Int) + 1)) := by
  obtain ⟨hpc, hlog⟩ := Push.transfer_entry opts w
  have hnum : ∀ j : Nat,
      retryNotices ((List.range j).map
        (fun (i : Nat) => LogLine.retryNotice ((0 : Int) + 1 + (i : Int))))
        = (List.range j).map (fun (i : Nat) => (i : Int) + 1) := by
    intro j
    rw [retryNotices_map (fun (i : Nat) => (0 : Int) + 1 + (i : Int))]
    apply List.map_congr_left
    intro i _
    omega
  constructor
  · intro k data hk hkN hfail hok
    obtain ⟨a, -, c⟩ := Push.tryPush_first_success remote opts.tryCount data (k - 1)
      { (Push._prepareFolder opts w).1 with _tryPushCount := 0 }
      (by right; rw [hN]; simp only; omega)
      (by rw [hpc]; exact hfail) (by rw [hpc]; exact hok)
    rw [hlog] at c
    have hno := (Push.start_notices remote opts w hprep).1
    refine ⟨a, ?_, ?_⟩
    · rw [hno]
      unfold Push.transfer
      rw [c, retryNotices_append, hnum]
    · intro hclean
      have := (Push.start_of_clean remote opts w hclean hprep).1
      unfold Push.transfer at this
      rw [a] at this
      exact this
  · intro hN1 cause hfail
    obtain ⟨a, -, c⟩ := Push.tryPush_all_fail remote opts.tryCount (N - 1) cause
      { (Push._prepareFolder opts w).1 with _tryPushCount := 0 }
      (by rw [hN]; simp only; omega)
      (by rw [hpc]; intro i hi; exact hfail i (by omega))
    rw [hlog] at c
    have hno := (Push.start_notices remote opts w hprep).1
    refine ⟨a, ?_⟩
    rw [hno]
    unfold Push.transfer
    rw [c, retryNotices_append, hnum]

/-! ## Claims -/

/-- C1. When every attempt of a push with `tryCount = N`, `N ≥ 1`, fails, the
retry controller, entered as `start` enters it (counter reset to 0), makes
exactly `N` push calls and rejects with the cause of the `N`-th attempt. -/
theorem C1_all_fail_makes_N_attempts (remote : Nat → Except Err Payload) (N : Nat)
    (cause : Nat → Err) (w : World) (hN : 1 ≤ N)
    (hfail : ∀ i, i < N → remote (w.pushCalls + i) = Except.error (cause i)) :
    (Push._tryPush remote (N : Int) { w with _tryPushCount := 0 }).2
      = Except.error (cause (N - 1)) ∧
    (Push._tryPush remote (N : Int) { w with _tryPushCount := 0 }).1.pushCalls
      = w.pushCalls + N := by
  obtain ⟨a, b, -⟩ := Push.tryPush_all_fail remote (N : Int) (N - 1) cause
    { w with _tryPushCount := 0 } (by simp only; omega)
    (fun i hi => hfail i (by omega))
  refine ⟨a, ?_⟩
  rw [b]
  simp only
  omega

/-- C1, an instance: four failing attempts with `tryCount = 4`. -/
theorem C1_witness :
    (Push._tryPush c1Remote ((4 : Nat) : Int) { emptyWorld with _tryPushCount := 0 }).2
        = Except.error (Err.remote "3".toList) ∧
    (Push._tryPush c1Remote ((4 : Nat) : Int) { emptyWorld with _tryPushCount := 0 }).1.pushCalls
        = emptyWorld.pushCalls + 4 :=
  C1_all_fail_makes_N_attempts c1Remote 4 (fun i => Err.remote [Char.ofNat (48 + i)])
    emptyWorld (by decide) (fun i _ => by simp [c1Remote, emptyWorld])

/-- C2. When the first successful attempt of a push with `tryCount = N` is
attempt `k`, `1 ≤ k ≤ N`, the retry controller, entered as `start` enters it,
makes exactly `k` push calls and resolves with the payload of attempt `k`. -/
theorem C2_first_success_short_circuits (remote : Nat → Except Err Payload) (N k : Nat)
    (data : Payload) (w : World) (hk : 1 ≤ k) (hkN : k ≤ N)
    (hfail : ∀ i, i < k - 1 → ∃ e, remote (w.pushCalls + i) = Except.error e)
    (hok : remote (w.pushCalls + (k - 1)) = Except.ok data) :
    (Push._tryPush remote (N : Int) { w with _tryPushCount := 0 }).2 = Except.ok data ∧
    (Push._tryPush remote (N : Int) { w with _tryPushCount := 0 }).1.pushCalls
      = w.pushCalls + k := by
  obtain ⟨a, b, -⟩ := Push.tryPush_first_success remote (N : Int) data (k - 1)
    { w with _tryPushCount := 0 } (by right; simp only; omega) hfail hok
  refine ⟨a, ?_⟩
  rw [b]
  simp only
  omega

/-- C2, an instance: two failures, success on attempt 3 of at most 4. -/
theorem C2_witness :
    (Push._tryPush c2Remote ((4 : Nat) : Int) { emptyWorld with _tryPushCount := 0 }).2
        = Except.ok "done".toList ∧
    (Push._tryPush c2Remote ((4 : Nat) : Int) { emptyWorld with _tryPushCount := 0 }).1.pushCalls
        = emptyWorld.pushCalls + 3 :=
  C2_first_success_short_circuits c2Remote 4 3 "done".toList emptyWorld (by decide) (by decide)
    (fun i hi => ⟨Err.remote "flaky".toList, by
      have : i < 2 := hi
      simp [c2Remote, emptyWorld, this]⟩)
    (by simp [c2Remote, emptyWorld])

/-- C3, the failing input: the staging directory holds a subdirectory, the
push succeeds at once, cleanup throws in the success callback and is invoked
a second time by the `.catch` callback; the promise stays pending. The same
happens to a pull whose transfer and placement succeed. -/
theorem C3_cleanup_invoked_twice :
    (Push.start okRemote defaultOptions dirtyWorld).1.cleanupCalls
      = dirtyWorld.cleanupCalls + 2 ∧
    (Push.start okRemote defaultOptions dirtyWorld).2 = Settled.pending ∧
    (Pull.start okScript defaultOptions dirtyWorld).1.cleanupCalls
      = dirtyWorld.cleanupCalls + 2 ∧
    (Pull.start okScript defaultOptions dirtyWorld).2 = Settled.pending := by
  have hp : Push._prepareFolder defaultOptions dirtyWorld
      = ((Push._prepareFolder defaultOptions dirtyWorld).1, Except.ok ()) := by rfl
  have ht := Push.tryPush_ok okRemote defaultOptions.tryCount
    { (Push._prepareFolder defaultOptions dirtyWorld).1 with _tryPushCount := 0 }
    "done".toList rfl
  refine ⟨?_, ?_, by decide, by decide⟩
  all_goals
    unfold Push.start
    rw [hp]
    simp only
    rw [ht]
    decide

/-- C4, the failing inputs: a pull whose transfer fails while the staging
directory holds a subdirectory, and a push whose staging directory cannot be
created because `tmp` is a regular file, both leave the promise pending: it
is not rejected with the cause of the failure. -/
theorem C4_failure_leaves_promise_pending :
    failScript.terminal = Except.error (Err.remote "fail".toList) ∧
    (Pull.start failScript defaultOptions dirtyWorld).2 = Settled.pending ∧
    (Push._prepareFolder defaultOptions tmpFileWorld).2
      = Except.error (Err.fs Errno.ENOTDIR ["tmp".toList, ".zanata".toList]) ∧
    (Push.start okRemote defaultOptions tmpFileWorld).2 = Settled.pending :=
  ⟨rfl, by decide, by rfl, by decide⟩

/-- C5 (as the code has it). With the default locale functions, staging a
locale and decoding the staged name gives the locale back exactly when the
locale holds no hyphen: `toLocal (toRemote x) = x ↔ '-' ∉ x`. -/
theorem C5_default_round_trip_iff_no_hyphen (x : Str) :
    defaultOptions.parseZanataLocaleFunction (Push.fileName defaultOptions x) = x ↔
      '-' ∉ x := by
  show replace (replace (replace x ['_'] ['-']) ['-'] ['_']) ['-'] ['_'] = x ↔ '-' ∉ x
  constructor
  · intro h hmem
    have hne : ('_' : Char) ≠ '-' := by decide
    have h1 : x.count '-' ≤ (replace x ['_'] ['-']).count '-' :=
      count_replace_other '_' '-' hne x
    have hpos : 0 < x.count '-' := List.count_pos_iff.mpr hmem
    have hmem1 : '-' ∈ replace x ['_'] ['-'] := List.count_pos_iff.mp (by omega)
    have h2 := count_replace_self '-' '_' hne.symm _ hmem1
    have h3 := count_replace_other_le '_' '-' x
    by_cases hz : '-' ∈ replace (replace x ['_'] ['-']) ['-'] ['_']
    · have h4 := count_replace_self '-' '_' hne.symm _ hz
      rw [h] at h4
      omega
    · rw [replace_of_not_mem '-' '_' _ hz] at h
      rw [h] at hz
      exact hz hmem
  · intro h
    rw [replace_replace_of_not_mem '-' '_' x h, replace_of_not_mem '-' '_' x h]

/-- C5, counterexample: `zh-Hans` has one separator and does not round-trip. -/
theorem C5_counterexample :
    defaultOptions.parseZanataLocaleFunction (Push.fileName defaultOptions "zh-Hans".toList)
      = "zh_Hans".toList ∧
    defaultOptions.parseZanataLocaleFunction (Push.fileName defaultOptions "zh-Hans".toList)
      ≠ "zh-Hans".toList := by
  decide

/-- C6. The copies that push staging (`_prepareFolder`) makes are copies of
files of the translation folder's listing that are not named in
`excludeFiles`, under the same name for a name ending in `.pot` and under the
encoded name (`fileName` of the locale, plus `.po`) for a name ending in
`.po`: an excluded file and a file with neither suffix are the source of no
copy. When staging completes, every such file has been copied, so the copies
are exactly these. -/
theorem C6_push_staging_selection (opts : Options) (w : World) :
    ∃ files staged,
      (readdirSync (_createTmpFolder opts.tmpDir w.fs).1 opts.translationFolder
          = Except.ok files ∨ staged = []) ∧
      (Push._prepareFolder opts w).1.copies = w.copies ++ staged ∧
      (∀ src dst, (src, dst) ∈ staged →
        ∃ file, file ∈ files ∧ file ∉ opts.excludeFiles ∧
          src = opts.translationFolder ++ [file] ∧
          ((endsWith file ".pot".toList = true ∧ dst = opts.tmpDir ++ [file]) ∨
           (endsWith file ".po".toList = true ∧
             dst = opts.tmpDir ++
               [Push.fileName opts (splitHead file ".po".toList) ++ ".po".toList]))) ∧
      ((Push._prepareFolder opts w).2 = Except.ok () →
        readdirSync (_createTmpFolder opts.tmpDir w.fs).1 opts.translationFolder
          = Except.ok files ∧
        ∀ src dst,
          (∃ file, file ∈ files ∧ file ∉ opts.excludeFiles ∧
            src = opts.translationFolder ++ [file] ∧
            ((endsWith file ".pot".toList = true ∧ dst = opts.tmpDir ++ [file]) ∨
             (endsWith file ".po".toList = true ∧
               dst = opts.tmpDir ++
                 [Push.fileName opts (splitHead file ".po".toList) ++ ".po".toList]))) →
          (src, dst) ∈ staged) := by
  unfold Push._prepareFolder
  cases hc : _createTmpFolder opts.tmpDir w.fs with
  | mk fs1 r =>
    cases r with
    | error e =>
      exact ⟨[], [], Or.inr rfl, by simp, fun _ _ h => by simp at h, fun h => by simp at h⟩
    | ok u =>
      simp only
      cases hd : readdirSync fs1 opts.translationFolder with
      | error e =>
        exact ⟨[], [], Or.inr rfl, by simp, fun _ _ h => by simp at h, fun h => by simp at h⟩
      | ok files =>
        simp only
        obtain ⟨staged, h1, h2, h3⟩ := Push.copyEach_copies_prefix opts files { w with fs := fs1 }
        refine ⟨files, staged, Or.inl rfl, h1, ?_, ?_⟩
        · intro src dst hm
          have hm2 := h2.subset hm
          rw [List.mem_filterMap] at hm2
          obtain ⟨file, hf, hcf⟩ := hm2
          exact ⟨file, hf, (Push.copyFor_eq_some_iff opts file src dst).mp hcf⟩
        · intro hok
          refine ⟨rfl, ?_⟩
          rintro src dst ⟨file, hf, hcf⟩
          rw [h3 hok, List.mem_filterMap]
          exact ⟨file, hf, (Push.copyFor_eq_some_iff opts file src dst).mpr hcf⟩

/-- C6, the scenario: `source.pot`, `en.po`, `zh-Hans.po` and `excluded.pot`
with the default exclude set stage `source.pot`, `en.po` and `zh_Hans.po`,
and not `excluded.pot`. -/
theorem C6_witness :
    (∃ files staged,
      (readdirSync (_createTmpFolder defaultOptions.tmpDir pushWorld.fs).1
          defaultOptions.translationFolder = Except.ok files ∨ staged = []) ∧
      (Push._prepareFolder defaultOptions pushWorld).1.copies = pushWorld.copies ++ staged ∧
      (∀ src dst, (src, dst) ∈ staged →
        ∃ file, file ∈ files ∧ file ∉ defaultOptions.excludeFiles ∧
          src = defaultOptions.translationFolder ++ [file] ∧
          ((endsWith file ".pot".toList = true ∧ dst = defaultOptions.tmpDir ++ [file]) ∨
           (endsWith file ".po".toList = true ∧
             dst = defaultOptions.tmpDir ++
               [Push.fileName defaultOptions (splitHead file ".po".toList)
                 ++ ".po".toList]))) ∧
      ((Push._prepareFolder defaultOptions pushWorld).2 = Except.ok () →
        readdirSync (_createTmpFolder defaultOptions.tmpDir pushWorld.fs).1
          defaultOptions.translationFolder = Except.ok files ∧
        ∀ src dst,
          (∃ file, file ∈ files ∧ file ∉ defaultOptions.excludeFiles ∧
            src = defaultOptions.translationFolder ++ [file] ∧
            ((endsWith file ".pot".toList = true ∧ dst = defaultOptions.tmpDir ++ [file]) ∨
             (endsWith file ".po".toList = true ∧
               dst = defaultOptions.tmpDir ++
                 [Push.fileName defaultOptions (splitHead file ".po".toList)
                   ++ ".po".toList]))) →
          (src, dst) ∈ staged)) ∧
    (Push._prepareFolder defaultOptions pushWorld).2 = Except.ok () ∧
    (Push._prepareFolder defaultOptions pushWorld).1.copies
      = [(["translations".toList, "en.po".toList],
          ["tmp".toList, ".zanata".toList, "en.po".toList]),
         (["translations".toList, "source.pot".toList],
          ["tmp".toList, ".zanata".toList, "source.pot".toList]),
         (["translations".toList, "zh-Hans.po".toList],
          ["tmp".toList, ".zanata".toList, "zh_Hans.po".toList])] ∧
    children (Push._prepareFolder defaultOptions pushWorld).1.fs defaultOptions.tmpDir
      = ["en.po".toList, "source.pot".toList, "zh_Hans.po".toList] :=
  ⟨C6_push_staging_selection defaultOptions pushWorld, by rfl, by decide, by decide⟩

/-- C7 (as the code has it). When push staging completes, a file of the
listing that is not excluded, whose name is `stem.po` with no other occurrence
of `.po`, has been copied under the name `f(stem)` with its first hyphen
replaced by an underscore, plus `.po`, for every locale function `f`. -/
theorem C7_push_po_staged_name (opts : Options) (w w' : World) (files : List Str) (stem : Str)
    (hok : Push._prepareFolder opts w = (w', Except.ok ()))
    (hdir : readdirSync (_createTmpFolder opts.tmpDir w.fs).1 opts.translationFolder
      = Except.ok files)
    (hfile : stem ++ ".po".toList ∈ files)
    (hex : stem ++ ".po".toList ∉ opts.excludeFiles)
    (hstem : includes stem ".po".toList = false) :
    (opts.translationFolder ++ [stem ++ ".po".toList],
      opts.tmpDir ++
        [replace (opts.getZanataLocaleFunction stem) "-".toList "_".toList ++ ".po".toList])
      ∈ w'.copies := by
  obtain ⟨files', h1, h2⟩ := Push.prepareFolder_copies opts w w' hok
  rw [hdir] at h1
  cases h1
  rw [h2]
  apply List.mem_append_right
  rw [List.mem_filterMap]
  refine ⟨stem ++ ".po".toList, hfile, ?_⟩
  rw [Push.copyFor_eq_some_iff]
  refine ⟨hex, rfl, Or.inr ⟨endsWith_append_self _ _, ?_⟩⟩
  rw [splitHead_append_po stem hstem]
  rfl

/-- C7, counterexample: with the default function `f`, `zh-Hans.po` is staged
as `zh_Hans.po`, and not under `f(zh-Hans) + .po`, which is `zh-Hans.po`. -/
theorem C7_counterexample :
    (["translations".toList, "zh-Hans.po".toList],
      ["tmp".toList, ".zanata".toList, "zh_Hans.po".toList])
      ∈ (Push._prepareFolder defaultOptions pushWorld).1.copies ∧
    (["translations".toList, "zh-Hans.po".toList],
      ["tmp".toList, ".zanata".toList,
        defaultOptions.getZanataLocaleFunction "zh-Hans".toList ++ ".po".toList])
      ∉ (Push._prepareFolder defaultOptions pushWorld).1.copies := by
  decide

/-- C7, an instance: with the default function `zh-Hans.po` is staged as
`zh_Hans.po`. -/
theorem C7_witness :
    (defaultOptions.translationFolder ++ ["zh-Hans".toList ++ ".po".toList],
      defaultOptions.tmpDir ++
        [replace (defaultOptions.getZanataLocaleFunction "zh-Hans".toList)
          "-".toList "_".toList ++ ".po".toList])
      ∈ (Push._prepareFolder defaultOptions pushWorld).1.copies :=
  C7_push_po_staged_name defaultOptions pushWorld
    (Push._prepareFolder defaultOptions pushWorld).1
    ["en.po".toList, "excluded.pot".toList, "source.pot".toList, "zh-Hans.po".toList]
    "zh-Hans".toList (by rfl) (by rfl) (by decide) (by decide) (by decide)

/-- C8, the failing input: the staging directory holds `en.po.orig` when a
pull starts; the name ends neither in `.pot` nor in `.po`, and placement
copies the file over `translations/en.po`, next to the two pulled items. -/
theorem C8_placement_copies_non_matching_file :
    endsWith "en.po.orig".toList ".pot".toList = false ∧
    endsWith "en.po.orig".toList ".po".toList = false ∧
    (Pull.start okScript defaultOptions staleWorld).1.copies
      = [(["tmp".toList, ".zanata".toList, "de.po".toList],
          ["translations".toList, "de.po".toList]),
         (["tmp".toList, ".zanata".toList, "en.po.orig".toList],
          ["translations".toList, "en.po".toList]),
         (["tmp".toList, ".zanata".toList, "source.pot".toList],
          ["translations".toList, "source.pot".toList])] ∧
    fsFind staleWorld.fs ["translations".toList, "en.po".toList]
      = some (Node.file "local".toList) ∧
    fsFind (Pull.start okScript defaultOptions staleWorld).1.fs
        ["translations".toList, "en.po".toList]
      = some (Node.file "stale".toList) := by
  decide

/-- C9, the failing input: a pull of the example project whose transfer ends
with the `end_pull` event carrying `summary`: the pull call resolves with
`summary`, the sync ends resolved, with no value. The push of the example
project resolves with the payload `done` of its push call. -/
theorem C9_pull_drops_end_pull_data :
    (pull okScript defaultOptions (Pull._prepareFolder defaultOptions pullWorld).1).2
      = Except.ok "summary".toList ∧
    (Pull.start okScript defaultOptions pullWorld).2 = Settled.resolved none ∧
    (Pull.start okScript defaultOptions pullWorld).2
      ≠ Settled.resolved (some "summary".toList) ∧
    (Push.start okRemote defaultOptions pushWorld).2
      = Settled.resolved (some "done".toList) := by
  have hp : Push._prepareFolder defaultOptions pushWorld
      = ((Push._prepareFolder defaultOptions pushWorld).1, Except.ok ()) := by rfl
  have ht := Push.tryPush_ok okRemote defaultOptions.tryCount
    { (Push._prepareFolder defaultOptions pushWorld).1 with _tryPushCount := 0 }
    "done".toList rfl
  refine ⟨rfl, by decide, by decide, ?_⟩
  unfold Push.start
  rw [hp]
  simp only
  rw [ht]
  decide

/-- C10, the failing input: the staging directory holds a subdirectory `old`
when a pull starts; two items are written to staging, then the transfer ends
with the `fail` event. No file is copied and the translation folder is as
before, but the promise is not rejected, it stays pending, and the staging
directory is still there, with `source.pot` of the items written in it. In
the project without the subdirectory the same pull is rejected with the
cause and the staging directory is gone. -/
theorem C10_failed_pull_stays_pending :
    failScript.terminal = Except.error (Err.remote "fail".toList) ∧
    (Pull.start failScript defaultOptions dirtyWorld).1.copies = dirtyWorld.copies ∧
    folderFiles (Pull.start failScript defaultOptions dirtyWorld).1.fs
        defaultOptions.translationFolder
      = folderFiles dirtyWorld.fs defaultOptions.translationFolder ∧
    (Pull.start failScript defaultOptions dirtyWorld).2 = Settled.pending ∧
    readdirSync (Pull.start failScript defaultOptions dirtyWorld).1.fs defaultOptions.tmpDir
      = Except.ok ["old".toList, "source.pot".toList] ∧
    fileAt (Pull.start failScript defaultOptions dirtyWorld).1.fs
        ["tmp".toList, ".zanata".toList, "source.pot".toList] = some "S".toList ∧
    (Pull.start failScript defaultOptions pullWorld).2
      = Settled.rejected (Err.remote "fail".toList) ∧
    fsFind (Pull.start failScript defaultOptions pullWorld).1.fs defaultOptions.tmpDir
      = none :=
  ⟨rfl, by decide, by decide, by decide, by rfl, by decide, by decide, by decide⟩

/-- C11, the failing input: the staging directory `tmp/.zanata`, distinct from
the translation folder, holds a subdirectory `old` before the push; all four
attempts fail. The translation folder keeps its entries, but after the sync
the staging directory still exists: cleanup has removed the staged `en.po`
and thrown on `old`, so `old`, `source.pot` and `zh_Hans.po` are left, and
the promise is pending. In the project without the subdirectory the same
push is rejected with the fourth error and the staging directory is gone. -/
theorem C11_exhausted_push_leaves_staging :
    defaultOptions.tmpDir ≠ defaultOptions.translationFolder ∧
    (Push.start c1Remote defaultOptions dirtyWorld).1.pushCalls = 4 ∧
    (Push.start c1Remote defaultOptions dirtyWorld).1.log
      = [LogLine.retryNotice 1, LogLine.retryNotice 2, LogLine.retryNotice 3,
         LogLine.errorContext, LogLine.errorCause (Err.remote "3".toList)] ∧
    folderFiles (Push.start c1Remote defaultOptions dirtyWorld).1.fs
        defaultOptions.translationFolder
      = folderFiles dirtyWorld.fs defaultOptions.translationFolder ∧
    fsFind (Push.start c1Remote defaultOptions dirtyWorld).1.fs defaultOptions.tmpDir
      = some Node.dir ∧
    readdirSync (Push.start c1Remote defaultOptions dirtyWorld).1.fs defaultOptions.tmpDir
      = Except.ok ["old".toList, "source.pot".toList, "zh_Hans.po".toList] ∧
    (Push.start c1Remote defaultOptions dirtyWorld).2 = Settled.pending ∧
    (Push.start c1Remote defaultOptions pushWorld).1.pushCalls = 4 ∧
    (Push.start c1Remote defaultOptions pushWorld).2
      = Settled.rejected (Err.remote "3".toList) ∧
    fsFind (Push.start c1Remote defaultOptions pushWorld).1.fs defaultOptions.tmpDir
      = none := by
  have hp : Push._prepareFolder defaultOptions dirtyWorld
      = ((Push._prepareFolder defaultOptions dirtyWorld).1, Except.ok ()) := by rfl
  have s1 := Push.tryPush_retry c1Remote defaultOptions.tryCount stagedDirtyWorld
    (Err.remote "0".toList) (by rfl) (by decide)
  have s2 := Push.tryPush_retry c1Remote defaultOptions.tryCount (retried stagedDirtyWorld)
    (Err.remote "1".toList) (by rfl) (by decide)
  have s3 := Push.tryPush_retry c1Remote defaultOptions.tryCount
    (retried (retried stagedDirtyWorld)) (Err.remote "2".toList) (by rfl) (by decide)
  have s4 := Push.tryPush_last c1Remote defaultOptions.tryCount
    (retried (retried (retried stagedDirtyWorld))) (Err.remote "3".toList) (by rfl)
    (by decide)
  have ht : Push._tryPush c1Remote defaultOptions.tryCount
      { (Push._prepareFolder defaultOptions dirtyWorld).1 with _tryPushCount := 0 }
      = ({ retried (retried (retried stagedDirtyWorld)) with
            _tryPushCount := (retried (retried (retried stagedDirtyWorld)))._tryPushCount + 1,
            pushCalls := (retried (retried (retried stagedDirtyWorld))).pushCalls + 1 },
          Except.error (Err.remote "3".toList)) :=
    s1.trans (s2.trans (s3.trans s4))
  have hq : Push._prepareFolder defaultOptions pushWorld
      = ((Push._prepareFolder defaultOptions pushWorld).1, Except.ok ()) := by rfl
  have t1 := Push.tryPush_retry c1Remote defaultOptions.tryCount stagedPushWorld
    (Err.remote "0".toList) (by rfl) (by decide)
  have t2 := Push.tryPush_retry c1Remote defaultOptions.tryCount (retried stagedPushWorld)
    (Err.remote "1".toList) (by rfl) (by decide)
  have t3 := Push.tryPush_retry c1Remote defaultOptions.tryCount
    (retried (retried stagedPushWorld)) (Err.remote "2".toList) (by rfl) (by decide)
  have t4 := Push.tryPush_last c1Remote defaultOptions.tryCount
    (retried (retried (retried stagedPushWorld))) (Err.remote "3".toList) (by rfl)
    (by decide)
  have hu : Push._tryPush c1Remote defaultOptions.tryCount
      { (Push._prepareFolder defaultOptions pushWorld).1 with _tryPushCount := 0 }
      = ({ retried (retried (retried stagedPushWorld)) with
            _tryPushCount := (retried (retried (retried stagedPushWorld)))._tryPushCount + 1,
            pushCalls := (retried (retried (retried stagedPushWorld))).pushCalls + 1 },
          Except.error (Err.remote "3".toList)) :=
    t1.trans (t2.trans (t3.trans t4))
  refine ⟨by decide, ?_, ?_, ?_, ?_, ?_, ?_, ?_, ?_, ?_⟩
  iterate 6
    unfold Push.start
    rw [hp]
    simp only
    rw [ht]
    first | decide | rfl
  all_goals
    unfold Push.start
    rw [hq]
    simp only
    rw [hu]
    decide

/-- C12, the failing input: a pull whose request lacks the project id, and one
that lacks the version, create the staging directory, issue the pull call and
are rejected with the error of the remote's `fail` event; a push that lacks
the project id stages its three files. -/
theorem C12_missing_project_or_version_not_checked :
    noProjectOptions.projectId = none ∧
    fsFind (Pull._prepareFolder noProjectOptions pullWorld).1.fs noProjectOptions.tmpDir
      = some Node.dir ∧
    (Pull.start failScript noProjectOptions pullWorld).1.pullCalls = 1 ∧
    (Pull.start failScript noProjectOptions pullWorld).2
      = Settled.rejected (Err.remote "fail".toList) ∧
    noVersionOptions.version = none ∧
    (Pull.start failScript noVersionOptions pullWorld).1.pullCalls = 1 ∧
    (Pull.start failScript noVersionOptions pullWorld).2
      = Settled.rejected (Err.remote "fail".toList) ∧
    (Push._prepareFolder noProjectOptions pushWorld).1.copies.length = 3 ∧
    pushWorld.pushCalls + 1 ≤ (Push.start okRemote noProjectOptions pushWorld).1.pushCalls :=
  ⟨rfl, by decide, by decide, by decide, rfl, by decide, by decide, by decide,
    by
      rw [(Push.start_notices okRemote noProjectOptions pushWorld (by rfl)).2]
      exact (Push.transfer_calls_bound okRemote noProjectOptions pushWorld).1⟩

/-- C13, the failing input: in a project without `tmp/.zanata`, cleanup of
`tmp/.zanata` throws `ENOENT`; on the empty directory it returns. -/
theorem C13_cleanup_throws_on_absent_directory :
    fsFind pullWorld.fs defaultOptions.tmpDir = none ∧
    (_cleanupTmpFolder defaultOptions.tmpDir pullWorld).2
      = Except.error (Err.fs Errno.ENOENT ["tmp".toList, ".zanata".toList]) ∧
    children emptyStagingWorld.fs defaultOptions.tmpDir = [] ∧
    (_cleanupTmpFolder defaultOptions.tmpDir emptyStagingWorld).2 = Except.ok () :=
  ⟨by decide, by rfl, by decide, by rfl⟩

/-- C14. When a call of `_createTmpFolder` returns, a second call with the same
path returns too and leaves the file system exactly as the first call left
it; after the first call `tmp` and the staging path exist, and every entry
that was there before it is still there with the same content. -/
theorem C14_createTmpFolder_idempotent (tmpDir : Path) (fs : FS)
    (hok : (_createTmpFolder tmpDir fs).2 = Except.ok ()) :
    _createTmpFolder tmpDir (_createTmpFolder tmpDir fs).1
      = ((_createTmpFolder tmpDir fs).1, Except.ok ()) ∧
    existsSync (_createTmpFolder tmpDir fs).1 ["tmp".toList] = true ∧
    existsSync (_createTmpFolder tmpDir fs).1 tmpDir = true ∧
    ∀ p n, fsFind fs p = some n → fsFind (_createTmpFolder tmpDir fs).1 p = some n := by
  have again : ∀ fs2 : FS, existsSync fs2 ["tmp".toList] = true → existsSync fs2 tmpDir = true →
      _createTmpFolder tmpDir fs2 = (fs2, Except.ok ()) := by
    intro fs2 h1 h2
    unfold _createTmpFolder
    rw [h1]
    simp only [Bool.not_true, Bool.false_eq_true, if_false]
    rw [h2]
    simp only [Bool.not_true, Bool.false_eq_true, if_false]
  unfold _createTmpFolder at hok
  have hdef : _createTmpFolder tmpDir fs =
      match (if !existsSync fs ["tmp".toList] then mkdirSync fs ["tmp".toList]
        else Except.ok fs) with
      | Except.error e => (fs, Except.error e)
      | Except.ok fs1 =>
        match (if !existsSync fs1 tmpDir then mkdirSync fs1 tmpDir else Except.ok fs1) with
        | Except.error e => (fs1, Except.error e)
        | Except.ok fs2 => (fs2, Except.ok ()) := by
    unfold _createTmpFolder
    rfl
  rw [hdef]
  cases h1 : (if !existsSync fs ["tmp".toList] then mkdirSync fs ["tmp".toList]
      else Except.ok fs) with
  | error e => rw [h1] at hok; simp at hok
  | ok fs1 =>
    rw [h1] at hok
    simp only at hok ⊢
    obtain ⟨a1, k1⟩ := mkdirStep_keeps fs fs1 _ h1
    cases h2 : (if !existsSync fs1 tmpDir then mkdirSync fs1 tmpDir else Except.ok fs1) with
    | error e => rw [h2] at hok; simp at hok
    | ok fs2 =>
      simp only
      obtain ⟨a2, k2⟩ := mkdirStep_keeps fs1 fs2 _ h2
      have htmp : existsSync fs2 ["tmp".toList] = true := by
        unfold existsSync at a1 ⊢
        cases hf : fsFind fs1 ["tmp".toList] with
        | none => rw [hf] at a1; simp at a1
        | some n => rw [k2 _ n hf]; rfl
      exact ⟨again fs2 htmp a2, htmp, a2, fun p n hp => k2 p n (k1 p n hp)⟩

/-- C14, an instance: in a project without `tmp`, the first call creates
`tmp` and `tmp/.zanata`, the second changes nothing. -/
theorem C14_witness :
    _createTmpFolder defaultOptions.tmpDir (_createTmpFolder defaultOptions.tmpDir pullWorld.fs).1
      = ((_createTmpFolder defaultOptions.tmpDir pullWorld.fs).1, Except.ok ()) ∧
    existsSync (_createTmpFolder defaultOptions.tmpDir pullWorld.fs).1 ["tmp".toList] = true ∧
    existsSync (_createTmpFolder defaultOptions.tmpDir pullWorld.fs).1 defaultOptions.tmpDir
      = true ∧
    fsFind (_createTmpFolder defaultOptions.tmpDir pullWorld.fs).1
        ["translations".toList, "en.po".toList]
      = some (Node.file "local".toList) :=
  have h := C14_createTmpFolder_idempotent defaultOptions.tmpDir pullWorld.fs (by rfl)
  ⟨h.1, h.2.1, h.2.2.1, h.2.2.2 _ _ (by decide)⟩

/-- C15, the failing input: the staging directory holds a subdirectory `old`
before the push; the first three attempts fail and the fourth succeeds, with
`tryCount` 4. The three retry notices and the success line are printed, then
the cleanup of the success callback throws on `old`, the `.catch` callback
prints the error and its cleanup throws again: the promise of the sync is not
resolved, it stays pending. In the project without the subdirectory the same
push prints the three notices and resolves with the payload. -/
theorem C15_success_after_retries_stays_pending :
    defaultOptions.tryCount = 4 ∧
    (Push.start flakyRemote defaultOptions dirtyWorld).1.pushCalls = 4 ∧
    (Push.start flakyRemote defaultOptions dirtyWorld).1.log
      = [LogLine.retryNotice 1, LogLine.retryNotice 2, LogLine.retryNotice 3,
         LogLine.success, LogLine.errorContext,
         LogLine.errorCause
           (Err.fs Errno.EISDIR ["tmp".toList, ".zanata".toList, "old".toList])] ∧
    (Push.start flakyRemote defaultOptions dirtyWorld).1.cleanupCalls = 2 ∧
    (Push.start flakyRemote defaultOptions dirtyWorld).2 = Settled.pending ∧
    (Push.start flakyRemote defaultOptions pushWorld).1.log
      = [LogLine.retryNotice 1, LogLine.retryNotice 2, LogLine.retryNotice 3,
         LogLine.success] ∧
    (Push.start flakyRemote defaultOptions pushWorld).2
      = Settled.resolved (some "done".toList) := by
  have hp : Push._prepareFolder defaultOptions dirtyWorld
      = ((Push._prepareFolder defaultOptions dirtyWorld).1, Except.ok ()) := by rfl
  have s1 := Push.tryPush_retry flakyRemote defaultOptions.tryCount stagedDirtyWorld
    (Err.remote "flaky".toList) (by rfl) (by decide)
  have s2 := Push.tryPush_retry flakyRemote defaultOptions.tryCount (retried stagedDirtyWorld)
    (Err.remote "flaky".toList) (by rfl) (by decide)
  have s3 := Push.tryPush_retry flakyRemote defaultOptions.tryCount
    (retried (retried stagedDirtyWorld)) (Err.remote "flaky".toList) (by rfl) (by decide)
  have s4 := Push.tryPush_ok flakyRemote defaultOptions.tryCount
    (retried (retried (retried stagedDirtyWorld))) "done".toList (by rfl)
  have ht : Push._tryPush flakyRemote defaultOptions.tryCount
      { (Push._prepareFolder defaultOptions dirtyWorld).1 with _tryPushCount := 0 }
      = ({ retried (retried (retried stagedDirtyWorld)) with
            _tryPushCount := (retried (retried (retried stagedDirtyWorld)))._tryPushCount + 1,
            pushCalls := (retried (retried (retried stagedDirtyWorld))).pushCalls + 1 },
          Except.ok "done".toList) :=
    s1.trans (s2.trans (s3.trans s4))
  have hq : Push._prepareFolder defaultOptions pushWorld
      = ((Push._prepareFolder defaultOptions pushWorld).1, Except.ok ()) := by rfl
  have t1 := Push.tryPush_retry flakyRemote defaultOptions.tryCount stagedPushWorld
    (Err.remote "flaky".toList) (by rfl) (by decide)
  have t2 := Push.tryPush_retry flakyRemote defaultOptions.tryCount (retried stagedPushWorld)
    (Err.remote "flaky".toList) (by rfl) (by decide)
  have t3 := Push.tryPush_retry flakyRemote defaultOptions.tryCount
    (retried (retried stagedPushWorld)) (Err.remote "flaky".toList) (by rfl) (by decide)
  have t4 := Push.tryPush_ok flakyRemote defaultOptions.tryCount
    (retried (retried (retried stagedPushWorld))) "done".toList (by rfl)
  have hu : Push._tryPush flakyRemote defaultOptions.tryCount
      { (Push._prepareFolder defaultOptions pushWorld).1 with _tryPushCount := 0 }
      = ({ retried (retried (retried stagedPushWorld)) with
            _tryPushCount := (retried (retried (retried stagedPushWorld)))._tryPushCount + 1,
            pushCalls := (retried (retried (retried stagedPushWorld))).pushCalls + 1 },
          Except.ok "done".toList) :=
    t1.trans (t2.trans (t3.trans t4))
  refine ⟨rfl, ?_, ?_, ?_, ?_, ?_, ?_⟩
  iterate 4
    unfold Push.start
    rw [hp]
    simp only
    rw [ht]
    decide
  all_goals
    unfold Push.start
    rw [hq]
    simp only
    rw [hu]
    decide

/-- C16. The default locale functions substitute the first occurrence only:
the push-side default turns the first underscore into a hyphen and the
pull-side default the first hyphen into an underscore; what stands before
and after that occurrence, later separators included, is unchanged, and an
identifier without the separator is returned as it is. -/
theorem C16_default_functions_first_occurrence (pre post x : Str) :
    ('_' ∉ pre →
      defaultGetZanataLocaleFunction (pre ++ '_' :: post) = pre ++ '-' :: post) ∧
    ('_' ∉ x → defaultGetZanataLocaleFunction x = x) ∧
    ('-' ∉ pre →
      defaultParseZanataLocaleFunction (pre ++ '-' :: post) = pre ++ '_' :: post) ∧
    ('-' ∉ x → defaultParseZanataLocaleFunction x = x) :=
  ⟨replace_first '_' '-' pre post, replace_of_not_mem '_' '-' x,
    replace_first '-' '_' pre post, replace_of_not_mem '-' '_' x⟩

/-- C16, instances: `sr_Latn_RS` becomes `sr-Latn_RS` on the push side and
`sr-Latn-RS` becomes `sr_Latn-RS` on the pull side; `en` stays `en`. -/
theorem C16_witness :
    defaultGetZanataLocaleFunction "sr_Latn_RS".toList = "sr-Latn_RS".toList ∧
    defaultGetZanataLocaleFunction "en".toList = "en".toList ∧
    defaultParseZanataLocaleFunction "sr-Latn-RS".toList = "sr_Latn-RS".toList ∧
    defaultParseZanataLocaleFunction "en".toList = "en".toList :=
  ⟨(C16_default_functions_first_occurrence "sr".toList "Latn_RS".toList "en".toList).1
      (by decide),
    (C16_default_functions_first_occurrence "sr".toList "Latn_RS".toList "en".toList).2.1
      (by decide),
    (C16_default_functions_first_occurrence "sr".toList "Latn-RS".toList "en".toList).2.2.1
      (by decide),
    (C16_default_functions_first_occurrence "sr".toList "Latn-RS".toList "en".toList).2.2.2
      (by decide)⟩

/-- C17. Of two push syncs run one after the other on the same command object,
the second does not depend on the counter the first has left: with any other
counter value in its place the second sync settles the same way, makes the
same push calls, prints the same lines and leaves the same file system. When
its staging completes, the second sync makes the push calls and prints the
retry notices of the retry controller entered with the counter at zero, and the
number of its attempts is fixed by its own `tryCount` and the outcomes of its
own attempts: `k` when its `k`-th attempt is the first to succeed
(`k ≤ tryCount`, or `k = 1`), `tryCount` when all of them fail, and between 1
and `max 1 tryCount` in every case. -/
theorem C17_counter_scoped_to_one_push (remote : Nat → Except Err Payload)
    (opts₁ opts₂ : Options) (w₀ : World) :
    (∀ c : Int,
      (Push.start remote opts₂ { (Push.start remote opts₁ w₀).1 with _tryPushCount := c }).2
        = (Push.start remote opts₂ (Push.start remote opts₁ w₀).1).2 ∧
      (Push.start remote opts₂
          { (Push.start remote opts₁ w₀).1 with _tryPushCount := c }).1.pushCalls
        = (Push.start remote opts₂ (Push.start remote opts₁ w₀).1).1.pushCalls ∧
      (Push.start remote opts₂
          { (Push.start remote opts₁ w₀).1 with _tryPushCount := c }).1.log
        = (Push.start remote opts₂ (Push.start remote opts₁ w₀).1).1.log ∧
      (Push.start remote opts₂
          { (Push.start remote opts₁ w₀).1 with _tryPushCount := c }).1.fs
        = (Push.start remote opts₂ (Push.start remote opts₁ w₀).1).1.fs) ∧
    ((Push._prepareFolder opts₂ (Push.start remote opts₁ w₀).1).2 = Except.ok () →
      (Push.start remote opts₂ (Push.start remote opts₁ w₀).1).1.pushCalls
        = (Push._tryPush remote opts₂.tryCount
            { (Push._prepareFolder opts₂ (Push.start remote opts₁ w₀).1).1 with
              _tryPushCount := 0 }).1.pushCalls ∧
      retryNotices (Push.start remote opts₂ (Push.start remote opts₁ w₀).1).1.log
        = retryNotices (Push._tryPush remote opts₂.tryCount
            { (Push._prepareFolder opts₂ (Push.start remote opts₁ w₀).1).1 with
              _tryPushCount := 0 }).1.log ∧
      (∀ (k : Nat) (data : Payload), 1 ≤ k → (k = 1 ∨ (k : Int) ≤ opts₂.tryCount) →
        (∀ i, i < k - 1 →
          ∃ e, remote ((Push.start remote opts₁ w₀).1.pushCalls + i) = Except.error e) →
        remote ((Push.start remote opts₁ w₀).1.pushCalls + (k - 1)) = Except.ok data →
        (Push.start remote opts₂ (Push.start remote opts₁ w₀).1).1.pushCalls
          = (Push.start remote opts₁ w₀).1.pushCalls + k) ∧
      (∀ (N : Nat) (cause : Nat → Err), opts₂.tryCount = (N : Int) → 1 ≤ N →
        (∀ i, i < N →
          remote ((Push.start remote opts₁ w₀).1.pushCalls + i) = Except.error (cause i)) →
        (Push.start remote opts₂ (Push.start remote opts₁ w₀).1).1.pushCalls
          = (Push.start remote opts₁ w₀).1.pushCalls + N) ∧
      (Push.start remote opts₁ w₀).1.pushCalls + 1
        ≤ (Push.start remote opts₂ (Push.start remote opts₁ w₀).1).1.pushCalls ∧
      (Push.start remote opts₂ (Push.start remote opts₁ w₀).1).1.pushCalls
        ≤ (Push.start remote opts₁ w₀).1.pushCalls + max 1 opts₂.tryCount.toNat) := by
  refine ⟨fun c => Push.start_setCount remote opts₂ (Push.start remote opts₁ w₀).1 c, ?_⟩
  intro hprep
  obtain ⟨hno, hcalls⟩ := Push.start_notices remote opts₂ _ hprep
  obtain ⟨hpc, -⟩ := Push.transfer_entry opts₂ (Push.start remote opts₁ w₀).1
  have hb := Push.transfer_calls_bound remote opts₂ (Push.start remote opts₁ w₀).1
  refine ⟨hcalls, hno, ?_, ?_, ?_⟩
  · intro k data hk hkN hfail hok
    obtain ⟨-, b, -⟩ := Push.tryPush_first_success remote opts₂.tryCount data (k - 1)
      { (Push._prepareFolder opts₂ (Push.start remote opts₁ w₀).1).1 with _tryPushCount := 0 }
      (by
        rcases hkN with h | h
        · left; omega
        · right; simp only; omega)
      (by rw [hpc]; exact hfail) (by rw [hpc]; exact hok)
    rw [hcalls]
    unfold Push.transfer
    rw [b, hpc]
    omega
  · intro N cause hN hN1 hfail
    obtain ⟨-, b, -⟩ := Push.tryPush_all_fail remote opts₂.tryCount (N - 1) cause
      { (Push._prepareFolder opts₂ (Push.start remote opts₁ w₀).1).1 with _tryPushCount := 0 }
      (by rw [hN]; simp only; omega)
      (by rw [hpc]; intro i hi; exact hfail i (by omega))
    rw [hcalls]
    unfold Push.transfer
    rw [b, hpc]
    omega
  · rw [hcalls]
    exact hb

/-- C17, an instance: the remote is down for five calls. A first push of the
example project fails on its four attempts and leaves the counter at 4; the
second push fails once more, succeeds on its second attempt and so makes two
push calls of its own, six in all. -/
theorem C17_witness :
    (Push.start recoveringRemote defaultOptions pushWorld).1._tryPushCount = 4 ∧
    (Push.start recoveringRemote defaultOptions pushWorld).1.pushCalls = 4 ∧
    (Push.start recoveringRemote defaultOptions
        (Push.start recoveringRemote defaultOptions pushWorld).1).1.pushCalls = 6 := by
  have hq : Push._prepareFolder defaultOptions pushWorld
      = ((Push._prepareFolder defaultOptions pushWorld).1, Except.ok ()) := by rfl
  have t1 := Push.tryPush_retry recoveringRemote defaultOptions.tryCount stagedPushWorld
    (Err.remote "down".toList) (by rfl) (by decide)
  have t2 := Push.tryPush_retry recoveringRemote defaultOptions.tryCount
    (retried stagedPushWorld) (Err.remote "down".toList) (by rfl) (by decide)
  have t3 := Push.tryPush_retry recoveringRemote defaultOptions.tryCount
    (retried (retried stagedPushWorld)) (Err.remote "down".toList) (by rfl) (by decide)
  have t4 := Push.tryPush_last recoveringRemote defaultOptions.tryCount
    (retried (retried (retried stagedPushWorld))) (Err.remote "down".toList) (by rfl)
    (by decide)
  have hu : Push._tryPush recoveringRemote defaultOptions.tryCount
      { (Push._prepareFolder defaultOptions pushWorld).1 with _tryPushCount := 0 }
      = ({ retried (retried (retried stagedPushWorld)) with
            _tryPushCount := (retried (retried (retried stagedPushWorld)))._tryPushCount + 1,
            pushCalls := (retried (retried (retried stagedPushWorld))).pushCalls + 1 },
          Except.error (Err.remote "down".toList)) :=
    t1.trans (t2.trans (t3.trans t4))
  have hcount : (Push.start recoveringRemote defaultOptions pushWorld).1._tryPushCount = 4 := by
    unfold Push.start
    rw [hq]
    simp only
    rw [hu]
    decide
  have hcalls : (Push.start recoveringRemote defaultOptions pushWorld).1.pushCalls = 4 := by
    unfold Push.start
    rw [hq]
    simp only
    rw [hu]
    decide
  have hprep2 : (Push._prepareFolder defaultOptions
      (Push.start recoveringRemote defaultOptions pushWorld).1).2 = Except.ok () := by
    unfold Push.start
    rw [hq]
    simp only
    rw [hu]
    rfl
  have h := ((C17_counter_scoped_to_one_push recoveringRemote defaultOptions defaultOptions
    pushWorld).2 hprep2).2.2.1 2 "done".toList (by decide) (Or.inr (by decide))
    (fun i hi => ⟨Err.remote "down".toList, by
      have hi0 : i = 0 := by omega
      rw [hcalls, hi0]
      rfl⟩)
    (by rw [hcalls]; rfl)
  exact ⟨hcount, hcalls, by rw [h, hcalls]⟩

/-- C18. The retry controller, entered with the counter reset to 0, makes one
attempt and no more when `tryCount ≤ 1` (zero and negative values included)
and the first attempt fails: it prints no retry notice and rejects with that
attempt's cause. For every integer `tryCount` and every script of outcomes it
makes at least one and at most `max 1 tryCount` attempts; the recursion is
well-founded, so it always returns. -/
theorem C18_at_least_one_attempt (remote : Nat → Except Err Payload) (maxCount : Int)
    (w : World) :
    (maxCount ≤ 1 → ∀ e, remote w.pushCalls = Except.error e →
      (Push._tryPush remote maxCount { w with _tryPushCount := 0 }).2 = Except.error e ∧
      (Push._tryPush remote maxCount { w with _tryPushCount := 0 }).1.pushCalls
        = w.pushCalls + 1 ∧
      (Push._tryPush remote maxCount { w with _tryPushCount := 0 }).1.log = w.log) ∧
    w.pushCalls + 1
      ≤ (Push._tryPush remote maxCount { w with _tryPushCount := 0 }).1.pushCalls ∧
    (Push._tryPush remote maxCount { w with _tryPushCount := 0 }).1.pushCalls
      ≤ w.pushCalls + max 1 maxCount.toNat := by
  refine ⟨?_, ?_⟩
  · intro hm e he
    rw [Push.tryPush_last remote maxCount { w with _tryPushCount := 0 } e he
      (by simp only; omega)]
    exact ⟨rfl, rfl, rfl⟩
  · obtain ⟨a, b⟩ := Push.tryPush_calls_bound remote maxCount _
      { w with _tryPushCount := 0 } rfl
    simp only at a b
    refine ⟨a, ?_⟩
    have : (maxCount - (0 + 1)).toNat + 1 = max 1 maxCount.toNat := by omega
    omega

/-- C18, instances: with `tryCount` 0 and with `tryCount` -3 a failing push
is attempted once. -/
theorem C18_witness :
    ((Push._tryPush c1Remote 0 { emptyWorld with _tryPushCount := 0 }).2
        = Except.error (Err.remote "0".toList) ∧
      (Push._tryPush c1Remote 0 { emptyWorld with _tryPushCount := 0 }).1.pushCalls
        = emptyWorld.pushCalls + 1 ∧
      (Push._tryPush c1Remote 0 { emptyWorld with _tryPushCount := 0 }).1.log
        = emptyWorld.log) ∧
    ((Push._tryPush c1Remote (-3) { emptyWorld with _tryPushCount := 0 }).2
        = Except.error (Err.remote "0".toList) ∧
      (Push._tryPush c1Remote (-3) { emptyWorld with _tryPushCount := 0 }).1.pushCalls
        = emptyWorld.pushCalls + 1 ∧
      (Push._tryPush c1Remote (-3) { emptyWorld with _tryPushCount := 0 }).1.log
        = emptyWorld.log) :=
  ⟨(C18_at_least_one_attempt c1Remote 0 emptyWorld).1 (by decide) _ rfl,
    (C18_at_least_one_attempt c1Remote (-3) emptyWorld).1 (by decide) _ rfl⟩

end Zanata
